import Mathlib

/-!
# Verification of the airline route-graph and shortest-path core

Shallow embedding of the repository's core modules:
  * `airline_rules.py`  — static hub/exclusion tables and rule predicates
  * `data_loader.py`    — `clean_airport_data` (cleaning of the city table)
  * `graph_builder.py`  — `build_graph` and its local `dist` lookup
  * `dijkstra.py`       — `dijkstra_airline_aware` and `dijkstra_standard`

Modelling conventions:
  * Python `float` distances are modelled as exact rationals `ℚ`; the
    sentinel `float("inf")` is modelled by `none` in `Option ℚ` (the type
    `Cell` below).  Rounding is idealized away.  At the search level this
    also covers NaN, since a NaN weight fails every `new_d < dist[v]`
    comparison and therefore never changes a distance; the builder-level
    edge rule, where `d == float("inf")` does NOT filter NaN, is treated
    separately over the three-valued float type `PF` (finite / inf / NaN)
    further below.
  * Python dicts keyed by strings are modelled as functions
    `String → Option _` built by the same insertion order as the source
    (later insertions overwrite earlier ones).
  * `while` loops are modelled with explicit fuel; the fuel chosen in each
    top-level definition is proved sufficient (under the non-negative
    weight assumption the spec makes) so that the loop reaches the same
    terminal state the Python loop reaches.
  * Exceptions (`ValueError`) are modelled by `Option`/validation guards.
-/

/-! ## Basic cells: Python floats with the `inf` sentinel -/

/-- A "float" slot that is either a finite value or the `float("inf")` sentinel
(`none` plays `inf`). -/
abbrev Cell := Option ℚ

/-- `q < c` where `c` may be `inf` (Python `new_d < dist[v]`). -/
def cellLtB (q : ℚ) (c : Cell) : Bool :=
  match c with
  | none => true
  | some x => decide (q < x)

/-- `q > c` where `c` may be `inf` (Python `d > dist[u]`); `q` finite. -/
def cellGtB (q : ℚ) (c : Cell) : Bool :=
  match c with
  | none => false
  | some x => decide (x < q)

/-- Order on cells with `none` as `+∞`. -/
def cLe (a b : Cell) : Prop :=
  match a, b with
  | _, none => True
  | none, some _ => False
  | some x, some y => x ≤ y

instance : ∀ a b : Cell, Decidable (cLe a b) := fun a b =>
  match a, b with
  | none, none => isTrue trivial
  | some _, none => isTrue trivial
  | none, some _ => isFalse id
  | some x, some y => inferInstanceAs (Decidable (x ≤ y))

/-- Add a finite weight to a cell (`inf + w = inf`). -/
def cellAdd (a : Cell) (w : ℚ) : Cell := a.map (· + w)

theorem cLe_refl (a : Cell) : cLe a a := by
  cases a <;> simp [cLe]

theorem cLe_trans {a b c : Cell} (h₁ : cLe a b) (h₂ : cLe b c) : cLe a c := by
  cases a <;> cases b <;> cases c <;> simp_all [cLe]
  exact le_trans h₁ h₂

theorem cLe_top (a : Cell) : cLe a none := by
  cases a <;> trivial

theorem cLe_some_iff {x y : ℚ} : cLe (some x) (some y) ↔ x ≤ y := Iff.rfl

theorem cLe_none_some {x : ℚ} : ¬ cLe none (some x) := id

theorem cLe_some_elim {a : Cell} {y : ℚ} (h : cLe a (some y)) :
    ∃ x, a = some x ∧ x ≤ y := by
  cases a with
  | none => exact absurd h cLe_none_some
  | some x => exact ⟨x, rfl, h⟩

theorem cellAdd_mono_left {a b : Cell} (w : ℚ) (h : cLe a b) :
    cLe (cellAdd a w) (cellAdd b w) := by
  cases a <;> cases b <;> simp_all [cLe, cellAdd]

theorem cLe_cellAdd_self {a : Cell} {w : ℚ} (hw : 0 ≤ w) :
    cLe a (cellAdd a w) := by
  cases a with
  | none => exact trivial
  | some x =>
    show x ≤ x + w
    linarith

theorem cellLtB_iff {q : ℚ} {c : Cell} :
    cellLtB q c = true ↔ ¬ cLe c (some q) := by
  cases c with
  | none => simp [cellLtB, cLe]
  | some x =>
    simp only [cellLtB, cLe, decide_eq_true_eq]
    exact lt_iff_not_le

theorem cellGtB_iff {q : ℚ} {c : Cell} :
    cellGtB q c = true ↔ ∃ x, c = some x ∧ x < q := by
  cases c with
  | none => simp [cellGtB]
  | some x => simp [cellGtB]

theorem cellGtB_false_iff {q : ℚ} {c : Cell} :
    cellGtB q c = false ↔ cLe (some q) c := by
  cases c with
  | none => simp [cellGtB, cLe]
  | some x => simp [cellGtB, cLe]

/-! ## `airline_rules.py` -/

/-- `AIRLINE_HUBS` dict, insertion order as in the source. -/
def AIRLINE_HUBS : List (String × String) :=
  [("Qatar Airways", "Doha"), ("Emirates", "Dubai"), ("Etihad", "Abu Dhabi")]

/-- Python dict lookup on an association list (later keys overwrite earlier
ones; with distinct keys, `find?` over the list agrees). -/
def dictGet (l : List (String × String)) (k : String) : Option String :=
  l.foldl (fun m p => fun x => if x = p.1 then some p.2 else m x) (fun _ => none) k

/-- `SUPPORTED_AIRLINES = frozenset(AIRLINE_HUBS.keys())`. -/
def SUPPORTED_AIRLINES : List String := AIRLINE_HUBS.map Prod.fst

/-- `AIRLINE_EXCLUDED_CITIES` — the per-airline exclusion sets (Python sets of
strings, modelled as lists; only membership is ever used). Unknown keys give
the empty set, matching `dict.get(airline, set())`. -/
def AIRLINE_EXCLUDED_CITIES (airline : String) : List String :=
  if airline = "Qatar Airways" then
    ["Vancouver", "Adelaide", "Wellington", "Perth", "Brisbane",
     "Denver", "Phoenix", "Orlando", "Detroit", "Minneapolis",
     "Cleveland", "St. Louis", "Tampa", "Baltimore", "Pittsburgh",
     "Charlotte", "Austin", "San Diego", "Portland", "Sacramento",
     "Bogota", "Lima", "Santiago", "Mexico City", "Lagos"]
  else if airline = "Emirates" then
    ["Vancouver", "Adelaide", "Wellington", "Perth", "Brisbane",
     "Denver", "Phoenix", "Orlando", "Detroit", "Minneapolis",
     "Cleveland", "St. Louis", "Tampa", "Baltimore", "Pittsburgh",
     "Charlotte", "Austin", "San Diego", "Portland", "Sacramento",
     "Zanzibar", "Kampala", "Lusaka", "Harare",
     "Bogota", "Lima", "Santiago", "Mexico City"]
  else if airline = "Etihad" then
    ["Vancouver", "Adelaide", "Wellington", "Perth", "Brisbane",
     "Denver", "Phoenix", "Orlando", "Detroit", "Minneapolis",
     "Cleveland", "St. Louis", "Tampa", "Baltimore", "Pittsburgh",
     "Charlotte", "Austin", "San Diego", "Portland", "Sacramento",
     "Mexico City", "Bogota", "Lima", "Santiago",
     "Rio de Janeiro", "Sao Paulo", "Buenos Aires",
     "Lagos", "Accra", "Cape Town", "Zanzibar"]
  else []

/-- `airline_serves_city`: total, never raises; hubs are always served; an
unknown airline gets the empty exclusion set. -/
def airline_serves_city (airline city : String) : Bool :=
  if city ∈ ["Doha", "Dubai", "Abu Dhabi"] then true
  else decide (city ∉ AIRLINE_EXCLUDED_CITIES airline)

/-- `get_hub`: `none` models the `ValueError("Unknown airline: ...")`. -/
def get_hub (airline : String) : Option String :=
  if airline ∈ SUPPORTED_AIRLINES then dictGet AIRLINE_HUBS airline else none

/-- `get_hubs_for_airlines`: the set comprehension `{get_hub(a) for a in
airlines}` evaluates `get_hub` for each element and raises on the first
unknown airline; the collected hubs are modelled as a list. -/
def get_hubs_for_airlines : List String → Option (List String)
  | [] => some []
  | a :: rest =>
    match get_hub a with
    | none => none
    | some h => (get_hubs_for_airlines rest).map (h :: ·)

/-! ## Claim C5 — exclusion sets are NOT pairwise disjoint -/

/-- C5 counterexample: the claim says the three exclusion sets are pairwise
disjoint, but "Vancouver" belongs to the exclusion set of more than one
airline (in fact to all three). -/
theorem excluded_cities_not_disjoint :
    "Vancouver" ∈ AIRLINE_EXCLUDED_CITIES "Qatar Airways" ∧
    "Vancouver" ∈ AIRLINE_EXCLUDED_CITIES "Emirates" ∧
    "Vancouver" ∈ AIRLINE_EXCLUDED_CITIES "Etihad" := by
  decide

/-- C5 (amended): the three exclusion sets are pairwise distinct (each pair
differs on some city) but not pairwise disjoint — all three share cities such
as Vancouver — and no hub city belongs to any airline's exclusion set. -/
theorem excluded_cities_structure :
    ("Lagos" ∈ AIRLINE_EXCLUDED_CITIES "Qatar Airways" ∧
     "Lagos" ∉ AIRLINE_EXCLUDED_CITIES "Emirates") ∧
    ("Zanzibar" ∈ AIRLINE_EXCLUDED_CITIES "Emirates" ∧
     "Zanzibar" ∉ AIRLINE_EXCLUDED_CITIES "Qatar Airways") ∧
    ("Rio de Janeiro" ∈ AIRLINE_EXCLUDED_CITIES "Etihad" ∧
     "Rio de Janeiro" ∉ AIRLINE_EXCLUDED_CITIES "Qatar Airways") ∧
    ("Kampala" ∈ AIRLINE_EXCLUDED_CITIES "Emirates" ∧
     "Kampala" ∉ AIRLINE_EXCLUDED_CITIES "Etihad") ∧
    ("Vancouver" ∈ AIRLINE_EXCLUDED_CITIES "Qatar Airways" ∧
     "Vancouver" ∈ AIRLINE_EXCLUDED_CITIES "Emirates" ∧
     "Vancouver" ∈ AIRLINE_EXCLUDED_CITIES "Etihad") ∧
    (∀ a ∈ SUPPORTED_AIRLINES, ∀ h ∈ ["Doha", "Dubai", "Abu Dhabi"],
      h ∉ AIRLINE_EXCLUDED_CITIES a) := by
  decide

/-! ## Claim C7 — which rule-table operations detect an unknown airline -/

/-- C7 counterexample: `airline_serves_city` does not raise for an airline
outside the fixed set of three; it silently returns the normal answer `true`
(the unknown airline gets an empty exclusion set via `dict.get(..., set())`).
In the embedding its total `Bool` type reflects that the Python function has
no raising path. -/
theorem serves_silent_on_unknown_airline :
    airline_serves_city "Condor" "Paris" = true ∧
    "Condor" ∉ SUPPORTED_AIRLINES := by
  decide

/-- C7 (amended): the hub lookup and the hub-set lookup fail with
`UnknownAirline` exactly when the supplied airline is outside the fixed set of
three, but the `serves` predicate never raises — it treats an unknown airline
as having an empty exclusion set and returns `true`. -/
theorem unknown_airline_behaviour :
    (∀ a, get_hub a = none ↔ a ∉ SUPPORTED_AIRLINES) ∧
    (∀ as, get_hubs_for_airlines as = none ↔ ∃ a ∈ as, a ∉ SUPPORTED_AIRLINES) ∧
    (∀ a c, a ∉ SUPPORTED_AIRLINES → airline_serves_city a c = true) := by
  refine ⟨?_, ?_, ?_⟩
  · intro a
    unfold get_hub
    constructor
    · intro h ha
      simp only [ha, if_true] at h
      revert h
      fin_cases ha <;> decide
    · intro ha
      simp [ha]
  · intro as
    induction as with
    | nil => simp [get_hubs_for_airlines]
    | cons a rest ih =>
      by_cases ha : a ∈ SUPPORTED_AIRLINES
      · have hhub : ∃ h, get_hub a = some h := by
          fin_cases ha <;> exact ⟨_, rfl⟩
        obtain ⟨h, hh⟩ := hhub
        have hne : get_hub a ≠ none := by simp [hh]
        simp only [get_hubs_for_airlines, hh]
        constructor
        · intro hnone
          rcases hrest : get_hubs_for_airlines rest with _ | l
          · exact ⟨(ih.mp hrest).choose, by
              have := (ih.mp hrest).choose_spec
              exact ⟨List.mem_cons_of_mem _ this.1, this.2⟩⟩
          · rw [hrest] at hnone
            simp [Option.map] at hnone
        · rintro ⟨b, hb, hbn⟩
          rcases List.mem_cons.mp hb with rfl | hb'
          · exact absurd ha hbn
          · rw [ih.mpr ⟨b, hb', hbn⟩]
            rfl
      · have : get_hub a = none := by simp [get_hub, ha]
        simp only [get_hubs_for_airlines, this]
        exact ⟨fun _ => ⟨a, List.mem_cons_self _ _, ha⟩, fun _ => trivial⟩
  · intro a c ha
    have hempty : AIRLINE_EXCLUDED_CITIES a = [] := by
      have h1 : a ≠ "Qatar Airways" := fun h => ha (by rw [h]; decide)
      have h2 : a ≠ "Emirates" := fun h => ha (by rw [h]; decide)
      have h3 : a ≠ "Etihad" := fun h => ha (by rw [h]; decide)
      simp [AIRLINE_EXCLUDED_CITIES, h1, h2, h3]
    by_cases hc : c ∈ ["Doha", "Dubai", "Abu Dhabi"]
    · simp [airline_serves_city, hc]
    · simp [airline_serves_city, hc, hempty]

/-- C7 amended-claim witness at a concrete unknown airline. -/
theorem unknown_airline_behaviour_witness :
    get_hub "Condor" = none ∧ airline_serves_city "Condor" "Paris" = true :=
  ⟨(unknown_airline_behaviour.1 "Condor").mpr (by decide),
   unknown_airline_behaviour.2.2 "Condor" "Paris" (by decide)⟩

/-! ## `data_loader.py` — the city table and `clean_airport_data` -/

/-- One cleaned row of the airport table (`REQUIRED_COLUMNS`). Distance cells
are `Cell`s (`none` = infinite/unknown); latitude/longitude are kept as
optional numerics but are never read by the graph builder or the search. -/
structure Row where
  city : String
  country : String
  lat : Option ℚ
  lon : Option ℚ
  dDoha : Cell
  dDubai : Cell
  dAbuDhabi : Cell
deriving DecidableEq

/-- The default row models the unreachable `.iloc[0]`-on-empty arm of the
distance lookup: its distance cells are all unknown. -/
instance : Inhabited Row := ⟨⟨"", "", none, none, none, none, none⟩⟩

/-- A raw (pre-cleaning) row: every field may be missing. -/
structure RawRow where
  city : Option String
  country : Option String
  lat : Option ℚ
  lon : Option ℚ
  dDoha : Cell
  dDubai : Cell
  dAbuDhabi : Cell

/-- `.str.strip()`: strip whitespace from both ends, modelled on the
character list (the builtin `String.trim` is byte-position based and does not
reduce in the kernel). -/
def stripStr (s : String) : String :=
  ⟨((s.data.dropWhile Char.isWhitespace).reverse.dropWhile Char.isWhitespace).reverse⟩

/-- `astype(str).str.strip()`: pandas renders a missing value as the literal
string "nan" before stripping, so no string cell is null afterwards. -/
def pdStr : Option String → String
  | none => "nan"
  | some s => stripStr s

/-- `drop_duplicates(subset=["City", "Country"], keep="first")`. -/
def dropDupRows : List Row → List (String × String) → List Row
  | [], _ => []
  | r :: rs, seen =>
    if (r.city, r.country) ∈ seen then dropDupRows rs seen
    else r :: dropDupRows rs ((r.city, r.country) :: seen)

/-- `clean_airport_data`: stringify City/Country (a missing City becomes the
string "nan", so the subsequent `dropna` on City never drops a row), drop rows
whose Latitude or Longitude failed numeric coercion, and collapse duplicate
(City, Country) pairs keeping the first occurrence. -/
def clean_airport_data (raw : List RawRow) : List Row :=
  let rows := raw.map (fun r =>
    { city := pdStr r.city, country := pdStr r.country, lat := r.lat,
      lon := r.lon, dDoha := r.dDoha, dDubai := r.dDubai,
      dAbuDhabi := r.dAbuDhabi : Row })
  let kept := rows.filter (fun r => r.lat.isSome && r.lon.isSome)
  dropDupRows kept []

/-! ## `graph_builder.py` -/

/-- An adjacency entry `(neighbor_index, weight_km, airline_or_None)`. -/
abbrev Edge := ℕ × ℚ × Option String

/-- Functional rendering of the dict comprehension
`{c: i for i, c in enumerate(cities)}` starting at index `k`: a lookup finds
the index of the key's LAST occurrence (later insertions overwrite). -/
def cityDict : ℕ → List String → String → Option ℕ
  | _, [] => fun _ => none
  | k, c :: rest => fun x =>
    match cityDict (k + 1) rest x with
    | some j => some j
    | none => if x = c then some k else none

/-- `index_to_city = {i: c for i, c in enumerate(cities)}`: the keys are
distinct, so this dict is the positional lookup into `cities`. -/
def indexToCity (cities : List String) (i : ℕ) : String := cities.getD i ""

/-- First row whose City equals `name`
(`df[df["City"] == name].iloc[0]`; the `.getD default` arm models the raising
path that is unreachable at both call sites). -/
def distRow (df : List Row) (name : String) : Row :=
  (df.find? (fun r => r.city = name)).getD default

/-- The local `dist(a, b)` of `build_graph`: 0 on equal names, the matching
precomputed hub-distance column when either endpoint is a hub name, and
`inf` (here `none`) for non-hub/non-hub pairs.  NOTE: `none` here collapses
the table's `inf` and NaN cells into one absent value; this is faithful for
everything the search observes (a NaN weight never passes a relaxation
comparison) but NOT for the builder's `d == float("inf")` test, which NaN
fails.  The exact builder-level edge rule is proved over the three-valued
model `dist_lookupF` below. -/
def dist_lookup (df : List Row) (a b : String) : Cell :=
  if a = b then some 0
  else if a = "Doha" then (distRow df b).dDoha
  else if a = "Dubai" then (distRow df b).dDubai
  else if a = "Abu Dhabi" then (distRow df b).dAbuDhabi
  else if b = "Doha" then (distRow df a).dDoha
  else if b = "Dubai" then (distRow df a).dDubai
  else if b = "Abu Dhabi" then (distRow df a).dAbuDhabi
  else none

/-- `adjacency_list[i].append(e)`. -/
def pushEdge (adj : List (List Edge)) (i : ℕ) (e : Edge) : List (List Edge) :=
  adj.set i (adj.getD i [] ++ [e])

/-- Body of the inner `for c in cities` loop of `build_graph`. -/
def addCityEdges (df : List Row) (airline hub : String)
    (c2i : String → Option ℕ) (hi : ℕ)
    (adj : List (List Edge)) (c : String) : List (List Edge) :=
  if c = hub then adj
  else if airline_serves_city airline c = false then adj
  else
    match c2i c with
    | none => adj
    | some ci =>
      match dist_lookup df hub c with
      | none => adj
      | some d => pushEdge (pushEdge adj hi (ci, d, some airline)) ci (hi, d, some airline)

/-- Body of the outer `for airline in airlines` loop of `build_graph`; the
`get_hub` failure arm is unreachable because the airlines were validated, and
an airline whose hub city is absent from the table is skipped. -/
def addAirlineEdges (df : List Row) (cities : List String)
    (c2i : String → Option ℕ)
    (adj : List (List Edge)) (airline : String) : List (List Edge) :=
  match get_hub airline with
  | none => adj
  | some hub =>
    match c2i hub with
    | none => adj
    | some hi => cities.foldl (addCityEdges df airline hub c2i hi) adj

/-- `build_graph(df, airlines)`; `none` models the
`ValueError("Unsupported airline: ...")`. -/
def build_graph (df : List Row) (airlines : List String) :
    Option (List (List Edge) × (String → Option ℕ) × (ℕ → String) × List Row) :=
  if airlines.all (fun a => decide (a ∈ SUPPORTED_AIRLINES)) then
    let cities := df.map Row.city
    let adjacency := airlines.foldl
      (addAirlineEdges df cities (cityDict 0 cities))
      (List.replicate cities.length ([] : List Edge))
    some (adjacency, cityDict 0 cities, indexToCity cities, df)
  else none

/-! ### Properties of the name-to-index dictionary -/

theorem cityDict_eq_some {l : List String} {x : String} {k i : ℕ}
    (h : cityDict k l x = some i) :
    ∃ j, j < l.length ∧ i = k + j ∧ l.getD j "" = x := by
  induction l generalizing k i with
  | nil => simp [cityDict] at h
  | cons c rest ih =>
    simp only [cityDict] at h
    rcases hr : cityDict (k + 1) rest x with _ | j
    · rw [hr] at h
      by_cases hx : x = c
      · simp only [hx, if_true, Option.some.injEq] at h
        exact ⟨0, by simp, by omega, by simp [hx]⟩
      · simp [hx] at h
    · rw [hr] at h
      obtain rfl : j = i := by simpa using h
      obtain ⟨j', hj', hij, hget⟩ := ih hr
      exact ⟨j' + 1, by simpa using hj', by omega, by simpa using hget⟩

theorem cityDict_not_mem {l : List String} {x : String} (h : x ∉ l) (k : ℕ) :
    cityDict k l x = none := by
  induction l generalizing k with
  | nil => rfl
  | cons c rest ih =>
    have hx : x ≠ c := fun hc => h (hc ▸ List.mem_cons_self _ _)
    have hr : x ∉ rest := fun hm => h (List.mem_cons_of_mem _ hm)
    simp [cityDict, ih hr, hx]

theorem cityDict_mem {l : List String} {x : String} (h : x ∈ l) (k : ℕ) :
    ∃ i, cityDict k l x = some i := by
  induction l generalizing k with
  | nil => exact absurd h (List.not_mem_nil x)
  | cons c rest ih =>
    by_cases hm : x ∈ rest
    · obtain ⟨i, hi⟩ := ih hm (k := k + 1)
      exact ⟨i, by simp [cityDict, hi]⟩
    · have hx : x = c := by
        rcases List.mem_cons.mp h with h' | h'
        · exact h'
        · exact absurd h' hm
      subst hx
      exact ⟨k, by simp [cityDict, cityDict_not_mem hm]⟩

theorem cityDict_of_nodup {l : List String} (hnd : l.Nodup) :
    ∀ k j, j < l.length → cityDict k l (l.getD j "") = some (k + j) := by
  induction l with
  | nil => intro k j hj; simp at hj
  | cons c rest ih =>
    intro k j hj
    rcases j with _ | j
    · have hcm : c ∉ rest := (List.nodup_cons.mp hnd).1
      simp [cityDict, cityDict_not_mem hcm]
    · have hj' : j < rest.length := by simpa using hj
      have hrec := ih (List.nodup_cons.mp hnd).2 (k + 1) j hj'
      rw [List.getD_cons_succ]
      simp only [cityDict, hrec]
      congr 1
      omega

/-! ### Closed form of the adjacency construction -/

theorem length_pushEdge (adj : List (List Edge)) (i : ℕ) (e : Edge) :
    (pushEdge adj i e).length = adj.length := by
  simp [pushEdge]

theorem getD_pushEdge_self {adj : List (List Edge)} {i : ℕ} (e : Edge)
    (h : i < adj.length) :
    (pushEdge adj i e).getD i [] = adj.getD i [] ++ [e] := by
  unfold pushEdge
  rw [List.getD_eq_getD_get?, List.get?_set_eq_of_lt _ h]
  rfl

theorem getD_pushEdge_ne {adj : List (List Edge)} {i j : ℕ} (e : Edge)
    (h : i ≠ j) :
    (pushEdge adj i e).getD j [] = adj.getD j [] := by
  unfold pushEdge
  rw [List.getD_eq_getD_get?, List.get?_set_ne _ _ h, ← List.getD_eq_getD_get?]

/-- Run a list of `(position, edge)` appends in order. -/
def pushList (adj : List (List Edge)) (l : List (ℕ × Edge)) : List (List Edge) :=
  l.foldl (fun acc p => pushEdge acc p.1 p.2) adj

theorem pushList_append (adj : List (List Edge)) (l₁ l₂ : List (ℕ × Edge)) :
    pushList adj (l₁ ++ l₂) = pushList (pushList adj l₁) l₂ := by
  simp [pushList, List.foldl_append]

theorem length_pushList (adj : List (List Edge)) (l : List (ℕ × Edge)) :
    (pushList adj l).length = adj.length := by
  induction l generalizing adj with
  | nil => rfl
  | cons p rest ih =>
    show (pushList (pushEdge adj p.1 p.2) rest).length = adj.length
    rw [ih, length_pushEdge]

theorem getD_pushList {l : List (ℕ × Edge)} {adj : List (List Edge)}
    (hl : ∀ p ∈ l, p.1 < adj.length) (j : ℕ) :
    (pushList adj l).getD j [] =
      adj.getD j [] ++ (l.filter (fun p => decide (p.1 = j))).map (fun p => p.2) := by
  induction l generalizing adj with
  | nil => simp [pushList]
  | cons p rest ih =>
    have hp : p.1 < adj.length := hl p (List.mem_cons_self _ _)
    have hrest : ∀ q ∈ rest, q.1 < (pushEdge adj p.1 p.2).length := by
      intro q hq
      rw [length_pushEdge]
      exact hl q (List.mem_cons_of_mem _ hq)
    show (pushList (pushEdge adj p.1 p.2) rest).getD j [] = _
    rw [ih hrest]
    by_cases hj : p.1 = j
    · subst hj
      rw [getD_pushEdge_self _ hp]
      simp [List.filter_cons]
    · rw [getD_pushEdge_ne _ hj]
      simp [List.filter_cons, hj]

theorem mem_getD_pushList {l : List (ℕ × Edge)} {adj : List (List Edge)}
    (hl : ∀ p ∈ l, p.1 < adj.length)
    (hadj : ∀ i, adj.getD i [] = []) (j : ℕ) (e : Edge) :
    e ∈ (pushList adj l).getD j [] ↔ (j, e) ∈ l := by
  rw [getD_pushList hl, hadj]
  simp only [List.nil_append, List.mem_map, List.mem_filter, decide_eq_true_eq]
  constructor
  · rintro ⟨p, ⟨hp, rfl⟩, rfl⟩
    exact (Prod.mk.eta (p := p)) ▸ hp
  · intro hje
    exact ⟨(j, e), ⟨hje, rfl⟩, rfl⟩

/-- The `(position, edge)` pairs appended by one iteration of the inner city
loop of `build_graph`. -/
def cityGen (df : List Row) (airline hub : String)
    (c2i : String → Option ℕ) (hi : ℕ) (c : String) : List (ℕ × Edge) :=
  if c = hub then []
  else if airline_serves_city airline c = false then []
  else
    match c2i c with
    | none => []
    | some ci =>
      match dist_lookup df hub c with
      | none => []
      | some d => [(hi, (ci, d, some airline)), (ci, (hi, d, some airline))]

theorem addCityEdges_eq (df : List Row) (airline hub : String)
    (c2i : String → Option ℕ) (hi : ℕ) (adj : List (List Edge)) (c : String) :
    addCityEdges df airline hub c2i hi adj c =
      pushList adj (cityGen df airline hub c2i hi c) := by
  unfold addCityEdges cityGen
  by_cases h1 : c = hub
  · simp [h1, pushList]
  · rcases h2 : airline_serves_city airline c with _ | _
    · simp [h1, h2, pushList]
    · simp only [h1, h2, if_false, Bool.true_eq_false]
      rcases h3 : c2i c with _ | ci
      · simp [pushList]
      · rcases h4 : dist_lookup df hub c with _ | d
        · simp [pushList]
        · simp [pushList]

/-- The pairs appended for one requested airline. -/
def airlineGen (df : List Row) (cities : List String)
    (c2i : String → Option ℕ) (airline : String) : List (ℕ × Edge) :=
  match get_hub airline with
  | none => []
  | some hub =>
    match c2i hub with
    | none => []
    | some hi => cities.flatMap (cityGen df airline hub c2i hi)

theorem foldl_addCityEdges (df : List Row) (airline hub : String)
    (c2i : String → Option ℕ) (hi : ℕ) :
    ∀ (cities : List String) (adj : List (List Edge)),
      cities.foldl (addCityEdges df airline hub c2i hi) adj =
        pushList adj (cities.flatMap (cityGen df airline hub c2i hi)) := by
  intro cities
  induction cities with
  | nil => intro adj; rfl
  | cons c rest ih =>
    intro adj
    show rest.foldl _ (addCityEdges df airline hub c2i hi adj c) = _
    rw [ih, addCityEdges_eq, ← pushList_append, List.flatMap_cons]

theorem addAirlineEdges_eq (df : List Row) (cities : List String)
    (c2i : String → Option ℕ) (adj : List (List Edge)) (airline : String) :
    addAirlineEdges df cities c2i adj airline =
      pushList adj (airlineGen df cities c2i airline) := by
  unfold addAirlineEdges airlineGen
  rcases get_hub airline with _ | hub
  · rfl
  · rcases hc : c2i hub with _ | hi
    · simp only [hc]
      rfl
    · simp only [hc]
      exact foldl_addCityEdges df airline hub c2i hi cities adj

/-- All pairs appended by `build_graph` for a list of airlines. -/
def buildGen (df : List Row) (cities : List String)
    (c2i : String → Option ℕ) (airlines : List String) : List (ℕ × Edge) :=
  airlines.flatMap (airlineGen df cities c2i)

theorem foldl_addAirlineEdges (df : List Row) (cities : List String)
    (c2i : String → Option ℕ) :
    ∀ (airlines : List String) (adj : List (List Edge)),
      airlines.foldl (addAirlineEdges df cities c2i) adj =
        pushList adj (buildGen df cities c2i airlines) := by
  intro airlines
  induction airlines with
  | nil => intro adj; rfl
  | cons a rest ih =>
    intro adj
    show rest.foldl _ (addAirlineEdges df cities c2i adj a) = _
    rw [ih, addAirlineEdges_eq, ← pushList_append]
    show _ = pushList adj ((a :: rest).flatMap (airlineGen df cities c2i))
    rw [List.flatMap_cons]
    rfl

theorem getD_replicate_nil (n i : ℕ) :
    (List.replicate n ([] : List Edge)).getD i [] = [] := by
  by_cases h : i < n
  · rw [List.getD_eq_getElem _ _ (by simpa using h)]
    simp
  · exact List.getD_eq_default _ _ (by simpa using Nat.le_of_not_lt h)

theorem cityDict_some_facts {l : List String} {x : String} {i : ℕ}
    (h : cityDict 0 l x = some i) :
    x ∈ l ∧ i < l.length ∧ l.getD i "" = x := by
  obtain ⟨j, hj, hij, hget⟩ := cityDict_eq_some h
  have : i = j := by omega
  subst this
  refine ⟨?_, hj, hget⟩
  rw [← hget]
  rw [List.getD_eq_getElem _ _ hj]
  exact List.getElem_mem hj

theorem cityDict_inj {l : List String} {a b : String} {i : ℕ}
    (ha : cityDict 0 l a = some i) (hb : cityDict 0 l b = some i) : a = b := by
  have h1 := (cityDict_some_facts ha).2.2
  have h2 := (cityDict_some_facts hb).2.2
  rw [← h1, ← h2]

theorem mem_cityGen_iff {df : List Row} {airline hub : String}
    {c2i : String → Option ℕ} {hi : ℕ} {c : String} {p : ℕ × Edge} :
    p ∈ cityGen df airline hub c2i hi c ↔
      c ≠ hub ∧ airline_serves_city airline c = true ∧
      ∃ ci d, c2i c = some ci ∧ dist_lookup df hub c = some d ∧
        (p = (hi, (ci, d, some airline)) ∨ p = (ci, (hi, d, some airline))) := by
  unfold cityGen
  by_cases h1 : c = hub
  · simp [h1]
  · rcases h2 : airline_serves_city airline c with _ | _
    · simp [h1, h2]
    · rcases h3 : c2i c with _ | ci
      · simp [h1, h2, h3]
      · rcases h4 : dist_lookup df hub c with _ | d
        · simp [h1, h2, h3, h4]
        · simp [h1, h2, h3, h4]

theorem mem_airlineGen_iff {df : List Row} {cities : List String}
    {c2i : String → Option ℕ} {airline : String} {p : ℕ × Edge} :
    p ∈ airlineGen df cities c2i airline ↔
      ∃ hub hi, get_hub airline = some hub ∧ c2i hub = some hi ∧
        ∃ c ∈ cities, p ∈ cityGen df airline hub c2i hi c := by
  unfold airlineGen
  rcases hg : get_hub airline with _ | hub
  · simp
  · rcases hh : c2i hub with _ | hi
    · simp [hh]
    · simp [hh, List.mem_flatMap]

theorem mem_buildGen_iff {df : List Row} {cities : List String}
    {c2i : String → Option ℕ} {airlines : List String} {p : ℕ × Edge} :
    p ∈ buildGen df cities c2i airlines ↔
      ∃ a ∈ airlines, ∃ hub hi, get_hub a = some hub ∧ c2i hub = some hi ∧
        ∃ c ∈ cities, p ∈ cityGen df a hub c2i hi c := by
  unfold buildGen
  simp only [List.mem_flatMap]
  constructor
  · rintro ⟨a, ha, hp⟩
    exact ⟨a, ha, mem_airlineGen_iff.mp hp⟩
  · rintro ⟨a, ha, hrest⟩
    exact ⟨a, ha, mem_airlineGen_iff.mpr hrest⟩

theorem buildGen_fst_lt {df : List Row} {cities : List String}
    {airlines : List String} {p : ℕ × Edge}
    (hp : p ∈ buildGen df cities (cityDict 0 cities) airlines) :
    p.1 < cities.length ∧ p.2.1 < cities.length := by
  obtain ⟨a, _, hub, hi, _, hhi, c, _, hcg⟩ := mem_buildGen_iff.mp hp
  obtain ⟨_, _, ci, d, hci, _, hcase⟩ := mem_cityGen_iff.mp hcg
  have h1 := (cityDict_some_facts hhi).2.1
  have h2 := (cityDict_some_facts hci).2.1
  rcases hcase with rfl | rfl
  · exact ⟨h1, h2⟩
  · exact ⟨h2, h1⟩

/-- Eliminating a successful `build_graph` call into its components. -/
theorem build_graph_elim {df : List Row} {airlines : List String}
    {adj : List (List Edge)} {c2i : String → Option ℕ} {i2c : ℕ → String}
    {df' : List Row}
    (hb : build_graph df airlines = some (adj, c2i, i2c, df')) :
    (∀ a ∈ airlines, a ∈ SUPPORTED_AIRLINES) ∧
    adj = pushList (List.replicate (df.map Row.city).length [])
            (buildGen df (df.map Row.city) (cityDict 0 (df.map Row.city)) airlines) ∧
    c2i = cityDict 0 (df.map Row.city) ∧
    i2c = indexToCity (df.map Row.city) ∧ df' = df := by
  unfold build_graph at hb
  by_cases hc : (airlines.all fun a => decide (a ∈ SUPPORTED_AIRLINES)) = true
  · rw [if_pos hc] at hb
    simp only [Option.some.injEq, Prod.mk.injEq] at hb
    obtain ⟨h1, h2, h3, h4⟩ := hb
    refine ⟨by simpa using hc, ?_, h2.symm, h3.symm, h4.symm⟩
    rw [← h1, foldl_addAirlineEdges]
  · rw [if_neg hc] at hb
    exact absurd hb (by simp)

/-- Adjacency membership in a built graph, in terms of the generator list. -/
theorem build_adj_mem {df : List Row} {airlines : List String}
    {adj : List (List Edge)} {c2i : String → Option ℕ} {i2c : ℕ → String}
    {df' : List Row}
    (hb : build_graph df airlines = some (adj, c2i, i2c, df')) (j : ℕ) (e : Edge) :
    e ∈ adj.getD j [] ↔
      (j, e) ∈ buildGen df (df.map Row.city) (cityDict 0 (df.map Row.city)) airlines := by
  obtain ⟨-, hadj, -, -, -⟩ := build_graph_elim hb
  subst hadj
  exact mem_getD_pushList
    (fun p hp => by simpa using (buildGen_fst_lt hp).1)
    (fun i => getD_replicate_nil _ i) j e

/-! ### Concrete built graphs used by several witnesses -/

/-- A small concrete witness table: the Qatar Airways hub and one served
city. -/
def dfW : List Row :=
  [⟨"Doha", "Qatar", some 25, some 51, some 0, some 700, some 300⟩,
   ⟨"London", "UK", some 51, some 0, some 3000, some 3400, some 3500⟩]

/-- The adjacency structure `build_graph dfW ["Qatar Airways"]` produces. -/
def adjW : List (List Edge) :=
  pushList (List.replicate (dfW.map Row.city).length [])
    (buildGen dfW (dfW.map Row.city) (cityDict 0 (dfW.map Row.city)) ["Qatar Airways"])

theorem build_graph_dfW :
    build_graph dfW ["Qatar Airways"] =
      some (adjW, cityDict 0 (dfW.map Row.city), indexToCity (dfW.map Row.city), dfW) := by
  rfl

/-! ## Claim C6 — the name/index mappings are not always a bijection -/

/-- What the claim calls a "total, collision-free bijection between the
table's city names and the indices 0..n-1". -/
def MapsBijective (cities : List String)
    (c2i : String → Option ℕ) (i2c : ℕ → String) : Prop :=
  (∀ i, i < cities.length → c2i (i2c i) = some i) ∧
  (∀ c ∈ cities, ∃ i, i < cities.length ∧ c2i c = some i ∧ i2c i = c)

/-- A raw table with two rows sharing the City name in different Countries;
both survive cleaning. -/
def rawDup : List RawRow :=
  [⟨some "Springfield", some "USA", some 10, some 20, some 100, some 200, some 300⟩,
   ⟨some "Springfield", some "Canada", some 11, some 21, some 101, some 201, some 301⟩]

/-- C6 counterexample: on the cleaned duplicate-name table (2 rows kept),
`build_graph` returns mappings that are NOT a bijection onto 0..1 — the name
"Springfield" maps only to index 1, and index 0's name maps back to 1. -/
theorem build_graph_maps_not_bijective :
    (clean_airport_data rawDup).length = 2 ∧
    build_graph (clean_airport_data rawDup) [] =
      some (List.replicate 2 ([] : List Edge),
            cityDict 0 ((clean_airport_data rawDup).map Row.city),
            indexToCity ((clean_airport_data rawDup).map Row.city),
            clean_airport_data rawDup) ∧
    ¬ MapsBijective ((clean_airport_data rawDup).map Row.city)
        (cityDict 0 ((clean_airport_data rawDup).map Row.city))
        (indexToCity ((clean_airport_data rawDup).map Row.city)) := by
  refine ⟨by rfl, by rfl, ?_⟩
  intro hbij
  have h0 := hbij.1 0 (by decide)
  revert h0
  decide

/-- C6 (amended): whenever the cleaned table's city names are pairwise
distinct, the mappings returned by `build_graph` form a total, collision-free
bijection between city names and indices 0..n-1. -/
theorem build_graph_maps_bijective {df : List Row} {airlines : List String}
    {adj : List (List Edge)} {c2i : String → Option ℕ} {i2c : ℕ → String}
    {df' : List Row}
    (hb : build_graph df airlines = some (adj, c2i, i2c, df'))
    (hnd : (df.map Row.city).Nodup) :
    MapsBijective (df.map Row.city) c2i i2c := by
  obtain ⟨-, -, hc2i, hi2c, -⟩ := build_graph_elim hb
  subst hc2i
  subst hi2c
  constructor
  · intro i hi
    simpa [indexToCity] using cityDict_of_nodup hnd 0 i hi
  · intro c hc
    obtain ⟨i, hi⟩ := cityDict_mem hc 0
    obtain ⟨hcm, hlt, hget⟩ := cityDict_some_facts hi
    exact ⟨i, hlt, hi, hget⟩

/-- C6 amended-claim witness on the concrete nodup table `dfW`. -/
theorem build_graph_maps_bijective_witness :
    MapsBijective (dfW.map Row.city) (cityDict 0 (dfW.map Row.city))
      (indexToCity (dfW.map Row.city)) :=
  build_graph_maps_bijective build_graph_dfW (by decide)

/-! ## `dijkstra.py` -/

/-- `prev[i] = (predecessor_index, airline_on_edge_from_pred_to_i)` or `None`. -/
abbrev PrevE := Option (ℕ × Option String)

/-- The mutable state of `dijkstra_airline_aware`'s main loop. -/
structure DState where
  dist : List Cell
  prev : List PrevE
  heap : List (ℚ × ℕ)

/-- Lexicographic order on `(distance, node_index)` heap entries — the tuple
order `heapq` uses. -/
def heapLe (a b : ℚ × ℕ) : Prop := a.1 < b.1 ∨ (a.1 = b.1 ∧ a.2 ≤ b.2)

def heapLeB (a b : ℚ × ℕ) : Bool :=
  decide (a.1 < b.1) || (decide (a.1 = b.1) && decide (a.2 ≤ b.2))

/-- `heapq.heappop`: remove and return the least entry in the tuple order;
modelled on a plain list of entries (the heap's internal array shape is not
observable through pop/push). -/
def popMin : List (ℚ × ℕ) → Option ((ℚ × ℕ) × List (ℚ × ℕ))
  | [] => none
  | x :: xs =>
    match popMin xs with
    | none => some (x, [])
    | some (m, rest) => if heapLeB x m then some (x, xs) else some (m, x :: rest)

/-- Body of the `for v, w, airline in adjacency_list[u]` relaxation loop;
`d` is the popped distance of `u`. -/
def relaxEdge (u : ℕ) (d : ℚ) (s : DState) (e : Edge) : DState :=
  if cellLtB (d + e.2.1) (s.dist.getD e.1 none) then
    { dist := s.dist.set e.1 (some (d + e.2.1))
      prev := s.prev.set e.1 (some (u, e.2.2))
      heap := s.heap ++ [(d + e.2.1, e.1)] }
  else s

/-- The `while heap:` loop, with explicit fuel: pop the least entry, skip it
if stale (`d > dist[u]`), break on the destination, otherwise relax all
outgoing edges. -/
def dijkstraLoop (adj : List (List Edge)) (dst : ℕ) : ℕ → DState → DState
  | 0, s => s
  | fuel + 1, s =>
    match popMin s.heap with
    | none => s
    | some ((d, u), rest) =>
      if cellGtB d (s.dist.getD u none) then
        dijkstraLoop adj dst fuel { s with heap := rest }
      else if u = dst then
        { s with heap := rest }
      else
        dijkstraLoop adj dst fuel
          ((adj.getD u []).foldl (relaxEdge u d) { s with heap := rest })

/-- Fuel sufficient for the loop to reach its natural end on non-negative
weights (proved below): the initial entry plus at most one push per edge. -/
def dijkstraFuel (adj : List (List Edge)) : ℕ := (adj.map List.length).sum + 2

/-- `dist = [inf] * n; dist[src] = 0.0; prev = [None] * n; heap = [(0.0, src)]`. -/
def initState (n src : ℕ) : DState :=
  { dist := (List.replicate n (none : Cell)).set src (some 0)
    prev := List.replicate n none
    heap := [(0, src)] }

/-- The reconstruction loop: walk backwards from `cur` along predecessor
links until a `None` link. Fuel `n` suffices because predecessor chains are
acyclic under non-negative weights (proved below). -/
def backtrack (prev : List PrevE) : ℕ → ℕ → List ℕ
  | 0, cur => [cur]
  | fuel + 1, cur =>
    match prev.getD cur none with
    | none => [cur]
    | some p => cur :: backtrack prev fuel p.1

/-- A `(from_city, to_city, airline)` segment. -/
abbrev Seg := String × String × Option String

instance : DecidableEq (ℚ × List String × List Seg) := instDecidableEqProd

/-- Rebuild segments from consecutive path nodes: `_, airline = prev[v]`.
The `none` arm is unreachable on the pairs the reconstruction emits. -/
def mkSegs (prev : List PrevE) (i2c : ℕ → String) (pathIdx : List ℕ) : List Seg :=
  (pathIdx.zip pathIdx.tail).map (fun p =>
    (i2c p.1, i2c p.2,
      match prev.getD p.2 none with
      | some pr => pr.2
      | none => none))

/-- `dijkstra_airline_aware`. The `airlines` parameter is accepted but — as
in the source — never read by the function body. -/
def dijkstra_airline_aware (adj : List (List Edge))
    (c2i : String → Option ℕ) (i2c : ℕ → String)
    (source dest : String) (_airlines : List String) :
    Option (ℚ × List String × List Seg) :=
  match c2i source, c2i dest with
  | some src, some dst =>
    let s := dijkstraLoop adj dst (dijkstraFuel adj) (initState adj.length src)
    match s.dist.getD dst none with
    | none => none
    | some total =>
      let pathIdx := (backtrack s.prev adj.length dst).reverse
      some (total, pathIdx.map i2c, mkSegs s.prev i2c pathIdx)
  | _, _ => none

/-- The state of `dijkstra_standard`'s loop (`prev[i]` holds only the
predecessor index). -/
structure SState where
  dist : List Cell
  prev : List (Option ℕ)
  heap : List (ℚ × ℕ)

/-- Relaxation step of `dijkstra_standard` (airline label ignored). -/
def relaxEdgeStd (u : ℕ) (d : ℚ) (s : SState) (e : Edge) : SState :=
  if cellLtB (d + e.2.1) (s.dist.getD e.1 none) then
    { dist := s.dist.set e.1 (some (d + e.2.1))
      prev := s.prev.set e.1 (some u)
      heap := s.heap ++ [(d + e.2.1, e.1)] }
  else s

/-- The `while heap:` loop of `dijkstra_standard`. -/
def stdLoop (adj : List (List Edge)) (dst : ℕ) : ℕ → SState → SState
  | 0, s => s
  | fuel + 1, s =>
    match popMin s.heap with
    | none => s
    | some ((d, u), rest) =>
      if cellGtB d (s.dist.getD u none) then
        stdLoop adj dst fuel { s with heap := rest }
      else if u = dst then
        { s with heap := rest }
      else
        stdLoop adj dst fuel
          ((adj.getD u []).foldl (relaxEdgeStd u d) { s with heap := rest })

def initStateStd (n src : ℕ) : SState :=
  { dist := (List.replicate n (none : Cell)).set src (some 0)
    prev := List.replicate n none
    heap := [(0, src)] }

/-- Reconstruction loop of `dijkstra_standard` (`cur = prev[cur]`). -/
def backtrackStd (prev : List (Option ℕ)) : ℕ → ℕ → List ℕ
  | 0, cur => [cur]
  | fuel + 1, cur =>
    match prev.getD cur none with
    | none => [cur]
    | some p => cur :: backtrackStd prev fuel p

/-- `dijkstra_standard`. -/
def dijkstra_standard (adj : List (List Edge))
    (c2i : String → Option ℕ) (i2c : ℕ → String)
    (source dest : String) : Option (ℚ × List String) :=
  match c2i source, c2i dest with
  | some src, some dst =>
    let s := stdLoop adj dst (dijkstraFuel adj) (initStateStd adj.length src)
    match s.dist.getD dst none with
    | none => none
    | some total =>
      some (total, ((backtrackStd s.prev adj.length dst).reverse).map i2c)
  | _, _ => none

/-! ### Generic list-update helpers -/

theorem getD_set_self {α : Type} (l : List α) (i : ℕ) (v d : α)
    (h : i < l.length) : (l.set i v).getD i d = v := by
  rw [List.getD_eq_getD_get?, List.get?_set_eq_of_lt _ h]
  rfl

theorem getD_set_ne {α : Type} (l : List α) {i j : ℕ} (v d : α) (h : i ≠ j) :
    (l.set i v).getD j d = l.getD j d := by
  rw [List.getD_eq_getD_get?, List.get?_set_ne _ _ h, ← List.getD_eq_getD_get?]

theorem getD_replicate {α : Type} (a d : α) {n i : ℕ} (h : i < n) :
    (List.replicate n a).getD i d = a := by
  rw [List.getD_eq_getElem _ _ (by simpa using h)]
  simp

/-! ## Claim C10 — the search ignores its `airlines` parameter -/

/-- C10: `dijkstra_airline_aware` never reads its `airlines` argument: any
two airline lists give identical results on the same graph, mappings, source
and destination. -/
theorem dijkstra_airline_aware_ignores_airlines
    (adj : List (List Edge)) (c2i : String → Option ℕ) (i2c : ℕ → String)
    (source dest : String) (airlines₁ airlines₂ : List String) :
    dijkstra_airline_aware adj c2i i2c source dest airlines₁ =
      dijkstra_airline_aware adj c2i i2c source dest airlines₂ := rfl

/-! ### Step equations for the search loops -/

theorem dijkstraLoop_pop_none {adj : List (List Edge)} {dst fuel : ℕ}
    {s : DState} (h : popMin s.heap = none) :
    dijkstraLoop adj dst (fuel + 1) s = s := by
  conv_lhs => rw [dijkstraLoop]
  simp only [h]

theorem dijkstraLoop_stale {adj : List (List Edge)} {dst fuel : ℕ}
    {s : DState} {d : ℚ} {u : ℕ} {rest : List (ℚ × ℕ)}
    (h : popMin s.heap = some ((d, u), rest))
    (hst : cellGtB d (s.dist.getD u none) = true) :
    dijkstraLoop adj dst (fuel + 1) s =
      dijkstraLoop adj dst fuel { s with heap := rest } := by
  conv_lhs => rw [dijkstraLoop]
  rw [h]
  show (if cellGtB d (s.dist.getD u none) = true then
          dijkstraLoop adj dst fuel { s with heap := rest }
        else if u = dst then { s with heap := rest }
        else dijkstraLoop adj dst fuel
          ((adj.getD u []).foldl (relaxEdge u d) { s with heap := rest })) = _
  rw [hst]
  simp

theorem dijkstraLoop_break {adj : List (List Edge)} {dst fuel : ℕ}
    {s : DState} {d : ℚ} {rest : List (ℚ × ℕ)}
    (h : popMin s.heap = some ((d, dst), rest))
    (hst : cellGtB d (s.dist.getD dst none) = false) :
    dijkstraLoop adj dst (fuel + 1) s = { s with heap := rest } := by
  conv_lhs => rw [dijkstraLoop]
  rw [h]
  show (if cellGtB d (s.dist.getD dst none) = true then
          dijkstraLoop adj dst fuel { s with heap := rest }
        else if dst = dst then { s with heap := rest }
        else dijkstraLoop adj dst fuel
          ((adj.getD dst []).foldl (relaxEdge dst d) { s with heap := rest })) = _
  rw [hst]
  simp

theorem dijkstraLoop_fresh {adj : List (List Edge)} {dst fuel : ℕ}
    {s : DState} {d : ℚ} {u : ℕ} {rest : List (ℚ × ℕ)}
    (h : popMin s.heap = some ((d, u), rest))
    (hst : cellGtB d (s.dist.getD u none) = false) (hne : u ≠ dst) :
    dijkstraLoop adj dst (fuel + 1) s =
      dijkstraLoop adj dst fuel
        ((adj.getD u []).foldl (relaxEdge u d) { s with heap := rest }) := by
  conv_lhs => rw [dijkstraLoop]
  rw [h]
  show (if cellGtB d (s.dist.getD u none) = true then
          dijkstraLoop adj dst fuel { s with heap := rest }
        else if u = dst then { s with heap := rest }
        else dijkstraLoop adj dst fuel
          ((adj.getD u []).foldl (relaxEdge u d) { s with heap := rest })) = _
  rw [hst]
  simp [hne]

theorem stdLoop_pop_none {adj : List (List Edge)} {dst fuel : ℕ}
    {s : SState} (h : popMin s.heap = none) :
    stdLoop adj dst (fuel + 1) s = s := by
  conv_lhs => rw [stdLoop]
  simp only [h]

theorem stdLoop_stale {adj : List (List Edge)} {dst fuel : ℕ}
    {s : SState} {d : ℚ} {u : ℕ} {rest : List (ℚ × ℕ)}
    (h : popMin s.heap = some ((d, u), rest))
    (hst : cellGtB d (s.dist.getD u none) = true) :
    stdLoop adj dst (fuel + 1) s = stdLoop adj dst fuel { s with heap := rest } := by
  conv_lhs => rw [stdLoop]
  rw [h]
  show (if cellGtB d (s.dist.getD u none) = true then
          stdLoop adj dst fuel { s with heap := rest }
        else if u = dst then { s with heap := rest }
        else stdLoop adj dst fuel
          ((adj.getD u []).foldl (relaxEdgeStd u d) { s with heap := rest })) = _
  rw [hst]
  simp

theorem stdLoop_break {adj : List (List Edge)} {dst fuel : ℕ}
    {s : SState} {d : ℚ} {rest : List (ℚ × ℕ)}
    (h : popMin s.heap = some ((d, dst), rest))
    (hst : cellGtB d (s.dist.getD dst none) = false) :
    stdLoop adj dst (fuel + 1) s = { s with heap := rest } := by
  conv_lhs => rw [stdLoop]
  rw [h]
  show (if cellGtB d (s.dist.getD dst none) = true then
          stdLoop adj dst fuel { s with heap := rest }
        else if dst = dst then { s with heap := rest }
        else stdLoop adj dst fuel
          ((adj.getD dst []).foldl (relaxEdgeStd dst d) { s with heap := rest })) = _
  rw [hst]
  simp

theorem stdLoop_fresh {adj : List (List Edge)} {dst fuel : ℕ}
    {s : SState} {d : ℚ} {u : ℕ} {rest : List (ℚ × ℕ)}
    (h : popMin s.heap = some ((d, u), rest))
    (hst : cellGtB d (s.dist.getD u none) = false) (hne : u ≠ dst) :
    stdLoop adj dst (fuel + 1) s =
      stdLoop adj dst fuel
        ((adj.getD u []).foldl (relaxEdgeStd u d) { s with heap := rest }) := by
  conv_lhs => rw [stdLoop]
  rw [h]
  show (if cellGtB d (s.dist.getD u none) = true then
          stdLoop adj dst fuel { s with heap := rest }
        else if u = dst then { s with heap := rest }
        else stdLoop adj dst fuel
          ((adj.getD u []).foldl (relaxEdgeStd u d) { s with heap := rest })) = _
  rw [hst]
  simp [hne]

/-! ## Claim C9 — source equals destination -/

/-- C9: when source = destination is a known city with a coherent index, the
result is the trivial path: distance 0, the one-city sequence, no legs. -/
theorem dijkstra_source_eq_dest (adj : List (List Edge))
    (c2i : String → Option ℕ) (i2c : ℕ → String) (city : String)
    (airlines : List String) (i : ℕ)
    (hlook : c2i city = some i) (hlt : i < adj.length) (hname : i2c i = city) :
    dijkstra_airline_aware adj c2i i2c city city airlines =
      some (0, [city], []) := by
  have hd0 : (initState adj.length i).dist.getD i none = some 0 := by
    unfold initState
    exact getD_set_self _ _ _ _ (by simpa using hlt)
  have hpop : popMin (initState adj.length i).heap = some (((0 : ℚ), i), []) := rfl
  have hgt : cellGtB 0 ((initState adj.length i).dist.getD i none) = false := by
    rw [hd0]
    rfl
  have hloop :
      dijkstraLoop adj i (dijkstraFuel adj) (initState adj.length i) =
        { initState adj.length i with heap := [] } := by
    rw [show dijkstraFuel adj = ((adj.map List.length).sum + 1) + 1 from rfl]
    exact dijkstraLoop_break hpop hgt
  have hprev : (initState adj.length i).prev.getD i none = none := by
    unfold initState
    exact getD_replicate _ _ hlt
  have hbt : backtrack (initState adj.length i).prev adj.length i = [i] := by
    cases hn : adj.length with
    | zero => rfl
    | succ m =>
      unfold backtrack
      rw [← hn, hprev]
  unfold dijkstra_airline_aware
  simp only [hlook, hloop, hd0, hbt]
  simp [mkSegs, hname]

/-- C9 witness on a one-node graph. -/
theorem dijkstra_source_eq_dest_witness :
    dijkstra_airline_aware [[]] (fun c => if c = "Doha" then some 0 else none)
      (fun _ => "Doha") "Doha" "Doha" [] = some (0, ["Doha"], []) :=
  dijkstra_source_eq_dest _ _ _ _ _ 0 (by decide) (by decide) rfl

/-! ### Paths over an adjacency list -/

/-- A weighted edge from `u` to `v` in the adjacency structure (any label). -/
def EdgeTo (adj : List (List Edge)) (u v : ℕ) (w : ℚ) : Prop :=
  ∃ lab, (v, w, lab) ∈ adj.getD u []

/-- `PathOn adj p W`: `p` is a nonempty vertex sequence chained by edges of
`adj`, the sum of whose weights is `W`. -/
inductive PathOn (adj : List (List Edge)) : List ℕ → ℚ → Prop where
  | single (u : ℕ) : PathOn adj [u] 0
  | cons {u v : ℕ} {rest : List ℕ} {w W : ℚ} :
      EdgeTo adj u v w → PathOn adj (v :: rest) W →
      PathOn adj (u :: v :: rest) (w + W)

/-- Well-formed graph: every edge's target is in range and its weight is
non-negative (the spec's standing assumption for the search). -/
def WFadj (adj : List (List Edge)) : Prop :=
  ∀ u, ∀ e ∈ adj.getD u [], e.1 < adj.length ∧ 0 ≤ e.2.1

theorem mem_getD_lt {adj : List (List Edge)} {u : ℕ} {e : Edge}
    (h : e ∈ adj.getD u []) : u < adj.length := by
  by_contra hn
  rw [List.getD_eq_default _ _ (by simpa using Nat.le_of_not_lt hn)] at h
  exact absurd h (List.not_mem_nil e)

theorem PathOn_nonneg {adj : List (List Edge)} (hWF : WFadj adj) :
    ∀ {p : List ℕ} {W : ℚ}, PathOn adj p W → 0 ≤ W := by
  intro p W hp
  induction hp with
  | single u => exact le_refl 0
  | cons he _ ih =>
    obtain ⟨lab, hmem⟩ := he
    have := (hWF _ _ hmem).2
    simp only at this
    linarith

theorem PathOn_nonempty {adj : List (List Edge)} {p : List ℕ} {W : ℚ}
    (h : PathOn adj p W) : p ≠ [] := by
  cases h <;> simp

theorem PathOn_append_edge {adj : List (List Edge)} :
    ∀ {p : List ℕ} {W : ℚ}, PathOn adj p W → ∀ {u v : ℕ} {w : ℚ},
      p.getLast? = some u → EdgeTo adj u v w → PathOn adj (p ++ [v]) (W + w) := by
  intro p W hp
  induction hp with
  | single x =>
    intro u v w hlast he
    have hxu : x = u := by simpa using hlast
    subst hxu
    have := PathOn.cons he (PathOn.single v)
    simpa [add_comm] using this
  | cons hxy hrest ih =>
    intro u v w hlast he
    have hlast' : (_ :: _).getLast? = some u := hlast
    rw [List.getLast?_cons_cons] at hlast'
    have := PathOn.cons hxy (ih hlast' he)
    simpa [add_assoc] using this

/-! ### Predecessor-trace structure -/

/-- `Grounded prev v`: the backward walk from `v` along `prev` links reaches
a `None` link after finitely many steps. -/
inductive Grounded (prev : List PrevE) : ℕ → Prop where
  | root (v : ℕ) (h : prev.getD v none = none) : Grounded prev v
  | step (v u : ℕ) (a : Option String) (h : prev.getD v none = some (u, a))
      (hu : Grounded prev u) : Grounded prev v

/-- `ChainMem prev x v`: `x` lies on the backward walk starting at `v`. -/
inductive ChainMem (prev : List PrevE) : ℕ → ℕ → Prop where
  | refl (v : ℕ) : ChainMem prev v v
  | step {x v u : ℕ} {a : Option String} (h : prev.getD v none = some (u, a))
      (hx : ChainMem prev x u) : ChainMem prev x v

/-! ### Heap pop: minimality and permutation -/

theorem popMin_eq_none {l : List (ℚ × ℕ)} : popMin l = none ↔ l = [] := by
  cases l with
  | nil => simp [popMin]
  | cons x xs =>
    simp only [popMin]
    constructor
    · intro h
      rcases hx : popMin xs with _ | p
      · rw [hx] at h; exact absurd h (by simp)
      · rw [hx] at h
        rcases p with ⟨m, rest⟩
        by_cases hle : heapLeB x m = true <;> simp [hle] at h
    · intro h; exact absurd h (by simp)

theorem heapLe_of_heapLeB {a b : ℚ × ℕ} (h : heapLeB a b = true) : heapLe a b := by
  simp only [heapLeB, Bool.or_eq_true, Bool.and_eq_true, decide_eq_true_eq] at h
  exact h

theorem heapLe_refl (a : ℚ × ℕ) : heapLe a a := Or.inr ⟨rfl, le_refl _⟩

theorem heapLe_of_not_heapLeB {a b : ℚ × ℕ} (h : ¬ heapLeB a b = true) :
    heapLe b a := by
  simp only [heapLeB, Bool.or_eq_true, Bool.and_eq_true, decide_eq_true_eq,
    not_or, not_and] at h
  obtain ⟨h1, h2⟩ := h
  rcases lt_trichotomy b.1 a.1 with hlt | heq | hgt
  · exact Or.inl hlt
  · refine Or.inr ⟨heq, ?_⟩
    rcases le_or_lt b.2 a.2 with hle | hgt2
    · exact hle
    · exact absurd (le_of_lt hgt2) (by simpa [heq] using h2 heq.symm)
  · exact absurd hgt h1

theorem heapLe_trans {a b c : ℚ × ℕ} (h₁ : heapLe a b) (h₂ : heapLe b c) :
    heapLe a c := by
  rcases h₁ with h₁ | ⟨e₁, l₁⟩ <;> rcases h₂ with h₂ | ⟨e₂, l₂⟩
  · exact Or.inl (lt_trans h₁ h₂)
  · exact Or.inl (e₂ ▸ h₁)
  · exact Or.inl (e₁ ▸ h₂)
  · exact Or.inr ⟨e₁.trans e₂, le_trans l₁ l₂⟩

theorem popMin_spec :
    ∀ {l : List (ℚ × ℕ)} {m : ℚ × ℕ} {rest : List (ℚ × ℕ)},
      popMin l = some (m, rest) →
      l.Perm (m :: rest) ∧ ∀ p ∈ l, heapLe m p := by
  intro l
  induction l with
  | nil => intro m rest h; exact absurd h (by simp [popMin])
  | cons x xs ih =>
    intro m rest h
    simp only [popMin] at h
    rcases hx : popMin xs with _ | p
    · rw [hx] at h
      have hxs : xs = [] := popMin_eq_none.mp hx
      subst hxs
      obtain ⟨rfl, rfl⟩ : x = m ∧ ([] : List (ℚ × ℕ)) = rest := by
        simpa using h
      exact ⟨List.Perm.refl _, by
        intro p hp
        simp only [List.mem_singleton] at hp
        exact hp ▸ heapLe_refl _⟩
    · rw [hx] at h
      rcases p with ⟨m', rest'⟩
      change (if heapLeB x m' = true then some (x, xs)
              else some (m', x :: rest')) = some (m, rest) at h
      obtain ⟨hperm', hmin'⟩ := ih hx
      by_cases hle : heapLeB x m' = true
      · rw [if_pos hle] at h
        obtain ⟨rfl, rfl⟩ : x = m ∧ xs = rest := by simpa using h
        refine ⟨List.Perm.refl _, ?_⟩
        intro p hp
        rcases List.mem_cons.mp hp with rfl | hp'
        · exact heapLe_refl p
        · exact heapLe_trans (heapLe_of_heapLeB hle) (hmin' p hp')
      · rw [if_neg hle] at h
        obtain ⟨rfl, rfl⟩ : m' = m ∧ x :: rest' = rest := by simpa using h
        constructor
        · exact (List.Perm.cons x hperm').trans (List.Perm.swap m' x rest')
        · intro p hp
          rcases List.mem_cons.mp hp with rfl | hp'
          · exact heapLe_of_not_heapLeB hle
          · exact hmin' p hp'

theorem popMin_mem {l : List (ℚ × ℕ)} {m : ℚ × ℕ} {rest : List (ℚ × ℕ)}
    (h : popMin l = some (m, rest)) : m ∈ l :=
  (popMin_spec h).1.symm.subset (List.mem_cons_self _ _)

theorem popMin_rest_subset {l : List (ℚ × ℕ)} {m : ℚ × ℕ}
    {rest : List (ℚ × ℕ)} (h : popMin l = some (m, rest)) :
    ∀ p ∈ rest, p ∈ l :=
  fun p hp => (popMin_spec h).1.symm.subset (List.mem_cons_of_mem _ hp)

/-- Occurrence count of a heap entry (explicit `DecidableEq` form). -/
def cnt (q : ℚ × ℕ) (l : List (ℚ × ℕ)) : ℕ :=
  l.countP (fun p => decide (p = q))

theorem cnt_perm {l₁ l₂ : List (ℚ × ℕ)} (h : l₁.Perm l₂) (q : ℚ × ℕ) :
    cnt q l₁ = cnt q l₂ :=
  h.countP_eq _

theorem cnt_cons (q x : ℚ × ℕ) (l : List (ℚ × ℕ)) :
    cnt q (x :: l) = cnt q l + (if x = q then 1 else 0) := by
  simp [cnt, List.countP_cons]

theorem cnt_pos_iff_mem {q : ℚ × ℕ} {l : List (ℚ × ℕ)} :
    0 < cnt q l ↔ q ∈ l := by
  unfold cnt
  rw [List.countP_pos]
  constructor
  · rintro ⟨a, ha, he⟩
    have : a = q := by simpa using he
    exact this ▸ ha
  · intro hq
    exact ⟨q, hq, by simp⟩

theorem cnt_append (q : ℚ × ℕ) (l₁ l₂ : List (ℚ × ℕ)) :
    cnt q (l₁ ++ l₂) = cnt q l₁ + cnt q l₂ := by
  simp [cnt, List.countP_append]

theorem popMin_cnt {l : List (ℚ × ℕ)} {m : ℚ × ℕ} {rest : List (ℚ × ℕ)}
    (h : popMin l = some (m, rest)) (q : ℚ × ℕ) :
    cnt q l = cnt q rest + (if m = q then 1 else 0) := by
  rw [cnt_perm (popMin_spec h).1 q, cnt_cons]

theorem popMin_mem_rest_of_ne {l : List (ℚ × ℕ)} {m q : ℚ × ℕ}
    {rest : List (ℚ × ℕ)} (h : popMin l = some (m, rest))
    (hq : q ∈ l) (hne : q ≠ m) : q ∈ rest := by
  have hc := popMin_cnt h q
  rw [if_neg (fun he => hne he.symm)] at hc
  have hpos : 0 < cnt q l := cnt_pos_iff_mem.mpr hq
  exact cnt_pos_iff_mem.mp (by omega)

/-! ### The loop invariant -/

/-- `u`'s current distance is finite and all its outgoing edges are relaxed
at that value. -/
def FullyRelaxed (adj : List (List Edge)) (dist : List Cell) (u : ℕ) : Prop :=
  ∃ x, dist.getD u none = some x ∧
    ∀ e ∈ adj.getD u [], cLe (dist.getD e.1 none) (some (x + e.2.1))

/-- Invariant of `dijkstraLoop` (for a well-formed graph with source `src`):
array lengths, `dist[src] = 0`, heap-key sanity, every finite-distance node
is either pending (its current distance is still a heap entry) or settled
(fully relaxed and below every heap key), predecessor links are real edges
whose relaxation bound still holds, and predecessor chains are acyclic. -/
structure LoopInv (adj : List (List Edge)) (src : ℕ) (s : DState) : Prop where
  distLen : s.dist.length = adj.length
  prevLen : s.prev.length = adj.length
  src0 : s.dist.getD src none = some 0
  heapKeys : ∀ p ∈ s.heap, 0 ≤ p.1 ∧ p.2 < adj.length
  heapLb : ∀ p ∈ s.heap, cLe (s.dist.getD p.2 none) (some p.1)
  heapCnt : ∀ v x, s.dist.getD v none = some x → cnt (x, v) s.heap ≤ 1
  pendSet : ∀ v, v < adj.length → (s.dist.getD v none).isSome →
    (∃ x, s.dist.getD v none = some x ∧ (x, v) ∈ s.heap) ∨
    (FullyRelaxed adj s.dist v ∧ ∀ p ∈ s.heap, cLe (s.dist.getD v none) (some p.1))
  rootSrc : ∀ v, s.prev.getD v none = none → (s.dist.getD v none).isSome → v = src
  linkEdge : ∀ v u a, s.prev.getD v none = some (u, a) →
    ∃ w, (v, w, a) ∈ adj.getD u [] ∧
      cLe (cellAdd (s.dist.getD u none) w) (s.dist.getD v none)
  grounded : ∀ v, Grounded s.prev v

/-- Along a predecessor chain the distance is monotone (non-negative
weights). -/
theorem chainMem_dist_le {adj : List (List Edge)} {dist : List Cell}
    {prev : List PrevE} (hWF : WFadj adj)
    (hlink : ∀ v u a, prev.getD v none = some (u, a) →
      ∃ w, (v, w, a) ∈ adj.getD u [] ∧
        cLe (cellAdd (dist.getD u none) w) (dist.getD v none)) :
    ∀ {x v : ℕ}, ChainMem prev x v →
      cLe (dist.getD x none) (dist.getD v none) := by
  intro x v hcm
  induction hcm with
  | refl => exact cLe_refl _
  | step h hx ih =>
    obtain ⟨w, hmem, hrel⟩ := hlink _ _ _ h
    have hw : 0 ≤ w := (hWF _ _ hmem).2
    exact cLe_trans ih (cLe_trans (cLe_cellAdd_self hw) hrel)

/-- A strict improvement of `v` from `u` is impossible when `v` lies on `u`'s
predecessor chain (acyclicity argument). -/
theorem not_chainMem_of_improve {adj : List (List Edge)} {dist : List Cell}
    {prev : List PrevE} (hWF : WFadj adj)
    (hlink : ∀ v u a, prev.getD v none = some (u, a) →
      ∃ w, (v, w, a) ∈ adj.getD u [] ∧
        cLe (cellAdd (dist.getD u none) w) (dist.getD v none))
    {u v : ℕ} {d w : ℚ}
    (hdu : dist.getD u none = some d)
    (himp : cellLtB (d + w) (dist.getD v none) = true) (hw : 0 ≤ w) :
    ¬ ChainMem prev v u := by
  intro hcm
  have hle := chainMem_dist_le hWF hlink hcm
  rw [hdu] at hle
  obtain ⟨y, hy, hyd⟩ := cLe_some_elim hle
  rw [cellLtB_iff] at himp
  apply himp
  rw [hy]
  exact (show y ≤ d + w by linarith)

theorem grounded_set_of_not_chainMem {prev : List PrevE} {vv : ℕ}
    {pe : ℕ × Option String} :
    ∀ y, Grounded prev y → ¬ ChainMem prev vv y →
      Grounded (prev.set vv (some pe)) y := by
  intro y hg
  induction hg with
  | root z h =>
    intro hnc
    have hzv : z ≠ vv := fun he => hnc (he ▸ ChainMem.refl z)
    exact Grounded.root z (by rw [getD_set_ne _ _ _ (fun he => hzv he.symm)]; exact h)
  | step z u a h hu ih =>
    intro hnc
    have hzv : z ≠ vv := fun he => hnc (he ▸ ChainMem.refl z)
    refine Grounded.step z u a ?_ (ih (fun hc => hnc (ChainMem.step h hc)))
    rw [getD_set_ne _ _ _ (fun he => hzv he.symm)]
    exact h

/-- Updating `prev[vv] := (u, a)` keeps every node grounded, provided `vv`
is not on `u`'s current chain. -/
theorem grounded_set {prev : List PrevE} {vv u : ℕ} {a : Option String}
    (hall : ∀ y, Grounded prev y) (hnc : ¬ ChainMem prev vv u)
    (hvlen : vv < prev.length) :
    ∀ y, Grounded (prev.set vv (some (u, a))) y := by
  have hv' : Grounded (prev.set vv (some (u, a))) vv := by
    refine Grounded.step vv u a ?_ (grounded_set_of_not_chainMem u (hall u) hnc)
    exact getD_set_self _ _ _ _ hvlen
  intro y
  induction hall y with
  | root z h =>
    by_cases hz : z = vv
    · exact hz ▸ hv'
    · exact Grounded.root z (by rw [getD_set_ne _ _ _ (fun he => hz he.symm)]; exact h)
  | step z u' a' h hu ih =>
    by_cases hz : z = vv
    · exact hz ▸ hv'
    · exact Grounded.step z u' a' (by rw [getD_set_ne _ _ _ (fun he => hz he.symm)]; exact h) ih

theorem cellLtB_false_iff {q : ℚ} {c : Cell} :
    cellLtB q c = false ↔ cLe c (some q) := by
  rw [← Bool.not_eq_true, cellLtB_iff, not_not]

theorem cellLtB_le {q : ℚ} {c : Cell} (h : cellLtB q c = true) :
    cLe (some q) c := by
  cases c with
  | none => exact cLe_top _
  | some x =>
    rw [cellLtB_iff] at h
    rw [cLe_some_iff] at h ⊢
    exact le_of_lt (lt_of_not_le h)

theorem cnt_eq_zero_of_not_mem {q : ℚ × ℕ} {l : List (ℚ × ℕ)}
    (h : q ∉ l) : cnt q l = 0 := by
  by_contra hne
  exact h (cnt_pos_iff_mem.mp (Nat.pos_of_ne_zero hne))

/-! ### Invariant through the relaxation fold -/

/-- Invariant holding while the outgoing edges of the freshly popped node `u`
(whose final distance is `d`) are relaxed; `done` lists the edges already
processed. -/
structure RelaxInv (adj : List (List Edge)) (src u : ℕ) (d : ℚ)
    (done : List Edge) (t : DState) : Prop where
  distLen : t.dist.length = adj.length
  prevLen : t.prev.length = adj.length
  src0 : t.dist.getD src none = some 0
  heapKeys : ∀ p ∈ t.heap, 0 ≤ p.1 ∧ p.2 < adj.length
  heapLb : ∀ p ∈ t.heap, cLe (t.dist.getD p.2 none) (some p.1)
  heapCnt : ∀ v x, t.dist.getD v none = some x → cnt (x, v) t.heap ≤ 1
  distU : t.dist.getD u none = some d
  dge0 : 0 ≤ d
  restMin : ∀ p ∈ t.heap, d ≤ p.1
  noU : (d, u) ∉ t.heap
  pendOrDone : ∀ v, v < adj.length → v ≠ u → (t.dist.getD v none).isSome →
    (∃ x, t.dist.getD v none = some x ∧ (x, v) ∈ t.heap) ∨
    (FullyRelaxed adj t.dist v ∧ cLe (t.dist.getD v none) (some d))
  rootSrc : ∀ v, t.prev.getD v none = none → (t.dist.getD v none).isSome → v = src
  linkEdge : ∀ v u' a, t.prev.getD v none = some (u', a) →
    ∃ w, (v, w, a) ∈ adj.getD u' [] ∧
      cLe (cellAdd (t.dist.getD u' none) w) (t.dist.getD v none)
  grounded : ∀ v, Grounded t.prev v
  doneRel : ∀ e ∈ done, cLe (t.dist.getD e.1 none) (some (d + e.2.1))

theorem relaxInv_step {adj : List (List Edge)} {src u : ℕ} {d : ℚ}
    {done : List Edge} {t : DState} {e : Edge}
    (hWF : WFadj adj) (hInv : RelaxInv adj src u d done t)
    (he : e ∈ adj.getD u []) :
    RelaxInv adj src u d (done ++ [e]) (relaxEdge u d t e) := by
  rcases hc : cellLtB (d + e.2.1) (t.dist.getD e.1 none) with _ | _
  · -- no improvement: state unchanged, the edge is already relaxed
    have heq : relaxEdge u d t e = t := by
      unfold relaxEdge
      rw [hc]
      simp
    rw [heq]
    refine ⟨hInv.distLen, hInv.prevLen, hInv.src0, hInv.heapKeys, hInv.heapLb,
      hInv.heapCnt, hInv.distU, hInv.dge0, hInv.restMin, hInv.noU,
      hInv.pendOrDone, hInv.rootSrc, hInv.linkEdge, hInv.grounded, ?_⟩
    intro e' he'
    rcases List.mem_append.mp he' with hd | hsing
    · exact hInv.doneRel e' hd
    · have : e' = e := by simpa using hsing
      subst this
      exact cellLtB_false_iff.mp hc
  · -- strict improvement of e.1
    have hv : e.1 < adj.length := (hWF _ _ he).1
    have hw0 : 0 ≤ e.2.1 := (hWF _ _ he).2
    have hvu : e.1 ≠ u := by
      intro hvu
      rw [hvu, hInv.distU, cellLtB_iff] at hc
      exact hc (by rw [cLe_some_iff]; linarith [hInv.dge0, hw0])
    have hvsrc : e.1 ≠ src := by
      intro hvs
      rw [hvs, hInv.src0, cellLtB_iff] at hc
      exact hc (by rw [cLe_some_iff]; linarith [hInv.dge0, hw0])
    have hndLe : cLe (some (d + e.2.1)) (t.dist.getD e.1 none) := cellLtB_le hc
    have heq : relaxEdge u d t e =
        ⟨t.dist.set e.1 (some (d + e.2.1)),
         t.prev.set e.1 (some (u, e.2.2)),
         t.heap ++ [(d + e.2.1, e.1)]⟩ := by
      unfold relaxEdge
      rw [hc]
      simp
    rw [heq]
    have hdlen : e.1 < t.dist.length := hInv.distLen ▸ hv
    have hplen : e.1 < t.prev.length := hInv.prevLen ▸ hv
    have hdv : (t.dist.set e.1 (some (d + e.2.1))).getD e.1 none =
        some (d + e.2.1) := getD_set_self _ _ _ _ hdlen
    have hdother : ∀ y, y ≠ e.1 →
        (t.dist.set e.1 (some (d + e.2.1))).getD y none = t.dist.getD y none :=
      fun y hy => getD_set_ne _ _ _ (fun hh => hy hh.symm)
    have hpv : (t.prev.set e.1 (some (u, e.2.2))).getD e.1 none =
        some (u, e.2.2) := getD_set_self _ _ _ _ hplen
    have hpother : ∀ y, y ≠ e.1 →
        (t.prev.set e.1 (some (u, e.2.2))).getD y none = t.prev.getD y none :=
      fun y hy => getD_set_ne _ _ _ (fun hh => hy hh.symm)
    have hdmono : ∀ y, cLe ((t.dist.set e.1 (some (d + e.2.1))).getD y none)
        (t.dist.getD y none) := by
      intro y
      by_cases hy : y = e.1
      · rw [hy, hdv]
        exact hndLe
      · rw [hdother y hy]
        exact cLe_refl _
    refine ⟨?_, ?_, ?_, ?_, ?_, ?_, ?_, hInv.dge0, ?_, ?_, ?_, ?_, ?_, ?_, ?_⟩
    · simpa using hInv.distLen
    · simpa using hInv.prevLen
    · rw [hdother src (fun hh => hvsrc hh.symm)]
      exact hInv.src0
    · intro p hp
      rcases List.mem_append.mp hp with hpold | hpnew
      · exact hInv.heapKeys p hpold
      · have : p = (d + e.2.1, e.1) := by simpa using hpnew
        subst this
        exact ⟨show (0 : ℚ) ≤ d + e.2.1 by linarith [hInv.dge0], hv⟩
    · intro p hp
      rcases List.mem_append.mp hp with hpold | hpnew
      · exact cLe_trans (hdmono p.2) (hInv.heapLb p hpold)
      · have : p = (d + e.2.1, e.1) := by simpa using hpnew
        subst this
        simp only
        rw [hdv]
        exact cLe_refl _
    · intro y x hyx
      by_cases hy : y = e.1
      · subst hy
        rw [hdv] at hyx
        have hx : x = d + e.2.1 := by simpa using hyx.symm
        subst hx
        rw [cnt_append]
        have hz : cnt (d + e.2.1, e.1) t.heap = 0 := by
          apply cnt_eq_zero_of_not_mem
          intro hmem
          have hlb := hInv.heapLb _ hmem
          simp only at hlb
          rw [cellLtB_iff] at hc
          exact hc hlb
        rw [hz]
        simp [cnt, List.countP_cons]
      · rw [hdother y hy] at hyx
        rw [cnt_append]
        have h2 : cnt (x, y) [(d + e.2.1, e.1)] = 0 := by
          apply cnt_eq_zero_of_not_mem
          intro hmem
          have : (x, y) = (d + e.2.1, e.1) := by simpa using hmem
          exact hy (by simpa using congrArg Prod.snd this)
        rw [h2]
        simpa using hInv.heapCnt y x hyx
    · rw [hdother u (Ne.symm hvu)]
      exact hInv.distU
    · intro p hp
      rcases List.mem_append.mp hp with hpold | hpnew
      · exact hInv.restMin p hpold
      · have : p = (d + e.2.1, e.1) := by simpa using hpnew
        subst this
        simp only
        linarith
    · intro hmem
      rcases List.mem_append.mp hmem with hpold | hpnew
      · exact hInv.noU hpold
      · have : (d, u) = (d + e.2.1, e.1) := by simpa using hpnew
        exact hvu (by simpa using (congrArg Prod.snd this).symm)
    · intro y hyn hyu hysome
      by_cases hy : y = e.1
      · subst hy
        left
        exact ⟨d + e.2.1, hdv, List.mem_append.mpr (Or.inr (by simp))⟩
      · rw [hdother y hy] at hysome ⊢
        rcases hInv.pendOrDone y hyn hyu hysome with ⟨x, hx, hxm⟩ | ⟨hFR, hle⟩
        · exact Or.inl ⟨x, hx, List.mem_append.mpr (Or.inl hxm)⟩
        · refine Or.inr ⟨?_, hle⟩
          obtain ⟨x, hx, hrel⟩ := hFR
          refine ⟨x, by rw [hdother y hy]; exact hx, ?_⟩
          intro e' he'
          exact cLe_trans (hdmono e'.1) (hrel e' he')
    · intro y hynone hysome
      by_cases hy : y = e.1
      · rw [hy, hpv] at hynone
        exact absurd hynone (by simp)
      · rw [hpother y hy] at hynone
        rw [hdother y hy] at hysome
        exact hInv.rootSrc y hynone hysome
    · intro y u' a hlink
      by_cases hy : y = e.1
      · subst hy
        rw [hpv] at hlink
        obtain ⟨hu', ha⟩ : u = u' ∧ e.2.2 = a := by
          constructor <;> [exact congrArg Prod.fst (Option.some.inj hlink);
            exact congrArg Prod.snd (Option.some.inj hlink)]
        subst hu'
        subst ha
        refine ⟨e.2.1, ?_, ?_⟩
        · simpa using he
        · rw [hdother u (Ne.symm hvu), hInv.distU, hdv]
          exact cLe_refl _
      · rw [hpother y hy] at hlink
        obtain ⟨w, hmem, hrel⟩ := hInv.linkEdge y u' a hlink
        refine ⟨w, hmem, ?_⟩
        rw [hdother y hy]
        exact cLe_trans (cellAdd_mono_left w (hdmono u')) hrel
    · exact grounded_set hInv.grounded
        (not_chainMem_of_improve hWF hInv.linkEdge hInv.distU hc hw0) hplen
    · intro e' he'
      rcases List.mem_append.mp he' with hd | hsing
      · exact cLe_trans (hdmono e'.1) (hInv.doneRel e' hd)
      · have : e' = e := by simpa using hsing
        subst this
        rw [hdv]
        exact cLe_refl _

theorem relaxInv_fold {adj : List (List Edge)} {src u : ℕ} {d : ℚ}
    (hWF : WFadj adj) :
    ∀ (es done : List Edge) (t : DState),
      RelaxInv adj src u d done t → adj.getD u [] = done ++ es →
      RelaxInv adj src u d (adj.getD u []) (es.foldl (relaxEdge u d) t) := by
  intro es
  induction es with
  | nil =>
    intro done t hInv hsplit
    rw [List.append_nil] at hsplit
    rw [hsplit]
    exact hInv
  | cons e es ih =>
    intro done t hInv hsplit
    show RelaxInv adj src u d (adj.getD u [])
      (es.foldl (relaxEdge u d) (relaxEdge u d t e))
    refine ih (done ++ [e]) _ ?_ ?_
    · refine relaxInv_step hWF hInv ?_
      rw [hsplit]
      exact List.mem_append.mpr (Or.inr (List.mem_cons_self _ _))
    · rw [hsplit, List.append_assoc]
      rfl

theorem relaxInv_entry {adj : List (List Edge)} {src : ℕ} {s : DState}
    {d : ℚ} {u : ℕ} {rest : List (ℚ × ℕ)}
    (hInv : LoopInv adj src s) (hpop : popMin s.heap = some ((d, u), rest))
    (hfresh : cellGtB d (s.dist.getD u none) = false) :
    RelaxInv adj src u d [] { s with heap := rest } := by
  have hmem : (d, u) ∈ s.heap := popMin_mem hpop
  have hd : s.dist.getD u none = some d := by
    have h1 := hInv.heapLb _ hmem
    have h2 := cellGtB_false_iff.mp hfresh
    obtain ⟨x, hx, hxd⟩ := cLe_some_elim h1
    rw [hx] at h2 ⊢
    rw [cLe_some_iff] at h2
    congr 1
    linarith
  have hrest_sub : ∀ p ∈ rest, p ∈ s.heap := popMin_rest_subset hpop
  refine ⟨hInv.distLen, hInv.prevLen, hInv.src0, ?_, ?_, ?_, hd,
    (hInv.heapKeys _ hmem).1, ?_, ?_, ?_, hInv.rootSrc, hInv.linkEdge,
    hInv.grounded, ?_⟩
  · intro p hp
    exact hInv.heapKeys p (hrest_sub p hp)
  · intro p hp
    exact hInv.heapLb p (hrest_sub p hp)
  · intro v x hvx
    have hc := popMin_cnt hpop (x, v)
    have := hInv.heapCnt v x hvx
    show cnt (x, v) rest ≤ 1
    omega
  · intro p hp
    have hle := (popMin_spec hpop).2 p (hrest_sub p hp)
    rcases hle with h | ⟨h, _⟩
    · exact le_of_lt h
    · exact le_of_eq h
  · intro hmem'
    have hc := popMin_cnt hpop (d, u)
    rw [if_pos rfl] at hc
    have h1 := hInv.heapCnt u d hd
    have h2 : 0 < cnt (d, u) rest := cnt_pos_iff_mem.mpr hmem'
    omega
  · intro v hvn hvu hvsome
    rcases hInv.pendSet v hvn hvsome with ⟨x, hx, hxm⟩ | ⟨hFR, hmin⟩
    · left
      refine ⟨x, hx, popMin_mem_rest_of_ne hpop hxm ?_⟩
      intro he
      exact hvu (by simpa using congrArg Prod.snd he)
    · right
      exact ⟨hFR, hmin (d, u) hmem⟩
  · intro e' he'
    exact absurd he' (List.not_mem_nil e')

theorem loopInv_exit {adj : List (List Edge)} {src u : ℕ} {d : ℚ} {t : DState}
    (hInv : RelaxInv adj src u d (adj.getD u []) t) : LoopInv adj src t := by
  refine ⟨hInv.distLen, hInv.prevLen, hInv.src0, hInv.heapKeys, hInv.heapLb,
    hInv.heapCnt, ?_, hInv.rootSrc, hInv.linkEdge, hInv.grounded⟩
  intro v hvn hvsome
  by_cases hvu : v = u
  · subst hvu
    right
    refine ⟨⟨d, hInv.distU, fun e he => hInv.doneRel e he⟩, ?_⟩
    intro p hp
    rw [hInv.distU, cLe_some_iff]
    exact hInv.restMin p hp
  · rcases hInv.pendOrDone v hvn hvu hvsome with hpend | ⟨hFR, hle⟩
    · exact Or.inl hpend
    · right
      refine ⟨hFR, ?_⟩
      intro p hp
      exact cLe_trans hle (by rw [cLe_some_iff]; exact hInv.restMin p hp)

theorem loopInv_stale {adj : List (List Edge)} {src : ℕ} {s : DState}
    {d : ℚ} {u : ℕ} {rest : List (ℚ × ℕ)}
    (hInv : LoopInv adj src s) (hpop : popMin s.heap = some ((d, u), rest))
    (hstale : cellGtB d (s.dist.getD u none) = true) :
    LoopInv adj src { s with heap := rest } := by
  have hrest_sub : ∀ p ∈ rest, p ∈ s.heap := popMin_rest_subset hpop
  obtain ⟨xu, hxu, hxud⟩ := cellGtB_iff.mp hstale
  refine ⟨hInv.distLen, hInv.prevLen, hInv.src0, ?_, ?_, ?_, ?_,
    hInv.rootSrc, hInv.linkEdge, hInv.grounded⟩
  · intro p hp
    exact hInv.heapKeys p (hrest_sub p hp)
  · intro p hp
    exact hInv.heapLb p (hrest_sub p hp)
  · intro v x hvx
    have hc := popMin_cnt hpop (x, v)
    have := hInv.heapCnt v x hvx
    show cnt (x, v) rest ≤ 1
    omega
  · intro v hvn hvsome
    rcases hInv.pendSet v hvn hvsome with ⟨x, hx, hxm⟩ | ⟨hFR, hmin⟩
    · left
      refine ⟨x, hx, popMin_mem_rest_of_ne hpop hxm ?_⟩
      intro he
      obtain ⟨he1, he2⟩ : x = d ∧ v = u := by
        exact ⟨by simpa using congrArg Prod.fst he, by simpa using congrArg Prod.snd he⟩
      subst he2
      rw [hx] at hxu
      have : x = xu := by simpa using hxu
      subst this
      subst he1
      exact absurd hxud (lt_irrefl _)
    · right
      exact ⟨hFR, fun p hp => hmin p (hrest_sub p hp)⟩

/-! ### The termination measure -/

/-- A node is settled once it has a finite distance whose heap entry has been
consumed: its distance can no longer change. -/
def settledB (s : DState) (v : ℕ) : Bool :=
  match s.dist.getD v none with
  | none => false
  | some x => !(decide ((x, v) ∈ s.heap))

/-- Remaining work: heap entries still to pop plus the out-degrees of the
nodes not yet settled. Strictly decreases at every non-break iteration. -/
def phi (adj : List (List Edge)) (s : DState) : ℕ :=
  s.heap.length +
    ((Finset.range adj.length).filter (fun v => settledB s v = false)).sum
      (fun v => (adj.getD v []).length)

theorem settledB_true_iff {s : DState} {v : ℕ} :
    settledB s v = true ↔
      ∃ x, s.dist.getD v none = some x ∧ (x, v) ∉ s.heap := by
  unfold settledB
  cases hd : s.dist.getD v none with
  | none => simp
  | some x => simp

theorem map_length_sum_eq (adj : List (List Edge)) :
    (adj.map List.length).sum =
      ∑ v ∈ Finset.range adj.length, (adj.getD v []).length := by
  induction adj with
  | nil => simp
  | cons a as ih =>
    rw [List.map_cons, List.sum_cons, ih,
      show (a :: as).length = as.length + 1 from rfl, Finset.sum_range_succ']
    simp only [List.getD_cons_succ, List.getD_cons_zero]
    exact add_comm _ _

theorem phi_init_le (adj : List (List Edge)) (src : ℕ) :
    phi adj (initState adj.length src) ≤ (adj.map List.length).sum + 1 := by
  unfold phi
  have h1 : (initState adj.length src).heap.length = 1 := rfl
  rw [h1, map_length_sum_eq, add_comm]
  have hsub : ((Finset.range adj.length).filter
        (fun v => settledB (initState adj.length src) v = false)).sum
        (fun v => (adj.getD v []).length) ≤
      (Finset.range adj.length).sum (fun v => (adj.getD v []).length) :=
    Finset.sum_le_sum_of_subset
      (Finset.filter_subset (fun v => settledB (initState adj.length src) v = false)
        (Finset.range adj.length))
  omega

theorem phi_stale_lt {adj : List (List Edge)} {s : DState} {d : ℚ} {u : ℕ}
    {rest : List (ℚ × ℕ)} (hpop : popMin s.heap = some ((d, u), rest)) :
    phi adj { s with heap := rest } < phi adj s := by
  have hlen : s.heap.length = rest.length + 1 := by
    have := (popMin_spec hpop).1.length_eq
    simpa using this
  unfold phi
  have hsub : ((Finset.range adj.length).filter
      (fun v => settledB { s with heap := rest } v = false)) ⊆
      ((Finset.range adj.length).filter (fun v => settledB s v = false)) := by
    intro v hv
    rw [Finset.mem_filter] at hv ⊢
    refine ⟨hv.1, ?_⟩
    by_contra hne
    have hst : settledB s v = true := by
      rcases hst : settledB s v with _ | _
      · exact absurd hst hne
      · rfl
    obtain ⟨x, hx, hxm⟩ := settledB_true_iff.mp hst
    have hst' : settledB { s with heap := rest } v = true := by
      rw [settledB_true_iff]
      exact ⟨x, hx, fun hm => hxm (popMin_rest_subset hpop _ hm)⟩
    rw [hv.2] at hst'
    exact absurd hst' (by simp)
  have hsum : ((Finset.range adj.length).filter
        (fun v => settledB { s with heap := rest } v = false)).sum
        (fun v => (adj.getD v []).length) ≤
      ((Finset.range adj.length).filter (fun v => settledB s v = false)).sum
        (fun v => (adj.getD v []).length) :=
    Finset.sum_le_sum_of_subset hsub
  show rest.length + _ < s.heap.length + _
  omega

theorem relaxEdge_heap_len (u : ℕ) (d : ℚ) (t : DState) (e : Edge) :
    (relaxEdge u d t e).heap.length ≤ t.heap.length + 1 := by
  unfold relaxEdge
  rcases hc : cellLtB (d + e.2.1) (t.dist.getD e.1 none) with _ | _
  · simp
  · simp

theorem foldl_relax_heap_len (u : ℕ) (d : ℚ) :
    ∀ (es : List Edge) (t : DState),
      ((es.foldl (relaxEdge u d) t).heap.length ≤ t.heap.length + es.length) := by
  intro es
  induction es with
  | nil => intro t; simp
  | cons e es ih =>
    intro t
    have h1 := ih (relaxEdge u d t e)
    have h2 := relaxEdge_heap_len u d t e
    simp only [List.foldl_cons, List.length_cons]
    omega

theorem settledB_relax_step {adj : List (List Edge)} {src u : ℕ} {d : ℚ}
    {done : List Edge} {t : DState} {e : Edge}
    (hWF : WFadj adj) (hInv : RelaxInv adj src u d done t)
    (he : e ∈ adj.getD u []) (v : ℕ) (hs : settledB t v = true) :
    settledB (relaxEdge u d t e) v = true := by
  rcases hc : cellLtB (d + e.2.1) (t.dist.getD e.1 none) with _ | _
  · have heq : relaxEdge u d t e = t := by
      unfold relaxEdge
      rw [hc]
      simp
    rw [heq]
    exact hs
  · -- the improved node e.1 cannot be settled, so v ≠ e.1
    have hv1 : e.1 < adj.length := (hWF _ _ he).1
    have hw0 : 0 ≤ e.2.1 := (hWF _ _ he).2
    have hvu : e.1 ≠ u := by
      intro hvu
      rw [hvu, hInv.distU, cellLtB_iff] at hc
      exact hc (by rw [cLe_some_iff]; linarith [hInv.dge0])
    have hunsettled : settledB t e.1 = false := by
      rcases hset : settledB t e.1 with _ | _
      · rfl
      · obtain ⟨x, hx, hxm⟩ := settledB_true_iff.mp hset
        rcases hInv.pendOrDone e.1 hv1 hvu (by rw [hx]; rfl) with ⟨y, hy, hym⟩ | ⟨-, hle⟩
        · rw [hx] at hy
          have : y = x := by simpa using hy.symm
          subst this
          exact absurd hym hxm
        · rw [cellLtB_iff] at hc
          exact absurd (cLe_trans hle (by rw [cLe_some_iff]; linarith)) hc
    have hvne : v ≠ e.1 := by
      intro hveq
      rw [hveq, hunsettled] at hs
      exact absurd hs (by simp)
    obtain ⟨x, hx, hxm⟩ := settledB_true_iff.mp hs
    have heq : relaxEdge u d t e =
        ⟨t.dist.set e.1 (some (d + e.2.1)),
         t.prev.set e.1 (some (u, e.2.2)),
         t.heap ++ [(d + e.2.1, e.1)]⟩ := by
      unfold relaxEdge
      rw [hc]
      simp
    rw [heq, settledB_true_iff]
    refine ⟨x, ?_, ?_⟩
    · show (t.dist.set e.1 (some (d + e.2.1))).getD v none = some x
      rw [getD_set_ne _ _ _ (fun hh => hvne hh.symm)]
      exact hx
    · intro hm
      rcases List.mem_append.mp hm with hm1 | hm2
      · exact hxm hm1
      · have : (x, v) = (d + e.2.1, e.1) := by simpa using hm2
        exact hvne (by simpa using congrArg Prod.snd this)

theorem settledB_relax_fold {adj : List (List Edge)} {src u : ℕ} {d : ℚ}
    (hWF : WFadj adj) :
    ∀ (es done : List Edge) (t : DState),
      RelaxInv adj src u d done t → adj.getD u [] = done ++ es →
      ∀ v, settledB t v = true →
        settledB (es.foldl (relaxEdge u d) t) v = true := by
  intro es
  induction es with
  | nil =>
    intro done t hInv hsplit v hs
    exact hs
  | cons e es ih =>
    intro done t hInv hsplit v hs
    have hemem : e ∈ adj.getD u [] := by
      rw [hsplit]
      exact List.mem_append.mpr (Or.inr (List.mem_cons_self _ _))
    refine ih (done ++ [e]) _ (relaxInv_step hWF hInv hemem) ?_ v
      (settledB_relax_step hWF hInv hemem v hs)
    rw [hsplit, List.append_assoc]
    rfl

theorem phi_fresh_lt {adj : List (List Edge)} {src : ℕ} {s : DState}
    {d : ℚ} {u : ℕ} {rest : List (ℚ × ℕ)}
    (hWF : WFadj adj) (hInv : LoopInv adj src s)
    (hpop : popMin s.heap = some ((d, u), rest))
    (hfresh : cellGtB d (s.dist.getD u none) = false) :
    phi adj ((adj.getD u []).foldl (relaxEdge u d) { s with heap := rest }) <
      phi adj s := by
  have hEntry := relaxInv_entry hInv hpop hfresh
  have hExit := relaxInv_fold hWF (adj.getD u []) [] _ hEntry (by simp)
  have humem : (d, u) ∈ s.heap := popMin_mem hpop
  have hun : u < adj.length := (hInv.heapKeys _ humem).2
  have hd : s.dist.getD u none = some d := hEntry.distU
  have hlen : s.heap.length = rest.length + 1 := by
    have := (popMin_spec hpop).1.length_eq
    simpa using this
  have hheap := foldl_relax_heap_len u d (adj.getD u []) { s with heap := rest }
  have hmono : ∀ v, settledB s v = true →
      settledB ((adj.getD u []).foldl (relaxEdge u d) { s with heap := rest }) v
        = true := by
    intro v hv
    refine settledB_relax_fold hWF (adj.getD u []) [] _ hEntry (by simp) v ?_
    obtain ⟨x, hx, hxm⟩ := settledB_true_iff.mp hv
    rw [settledB_true_iff]
    exact ⟨x, hx, fun hm => hxm (popMin_rest_subset hpop _ hm)⟩
  have hsetU : settledB
      ((adj.getD u []).foldl (relaxEdge u d) { s with heap := rest }) u = true :=
    settledB_true_iff.mpr ⟨d, hExit.distU, hExit.noU⟩
  have hunsU : settledB s u = false := by
    rcases hb : settledB s u with _ | _
    · rfl
    · obtain ⟨x, hx, hxm⟩ := settledB_true_iff.mp hb
      rw [hd] at hx
      have : x = d := by simpa using hx.symm
      subst this
      exact absurd humem hxm
  have hAsub : ((Finset.range adj.length).filter
      (fun v => settledB
        ((adj.getD u []).foldl (relaxEdge u d) { s with heap := rest }) v
        = false)) ⊆
      ((Finset.range adj.length).filter
        (fun v => settledB s v = false)).erase u := by
    intro v hv
    rw [Finset.mem_filter] at hv
    rw [Finset.mem_erase, Finset.mem_filter]
    refine ⟨?_, hv.1, ?_⟩
    · intro hvu
      rw [hvu, hsetU] at hv
      exact absurd hv.2 (by simp)
    · rcases hb : settledB s v with _ | _
      · rfl
      · rw [hmono v hb] at hv
        exact absurd hv.2 (by simp)
  have hsum : ((Finset.range adj.length).filter
        (fun v => settledB
          ((adj.getD u []).foldl (relaxEdge u d) { s with heap := rest }) v
          = false)).sum (fun v => (adj.getD v []).length) ≤
      (((Finset.range adj.length).filter
        (fun v => settledB s v = false)).erase u).sum
        (fun v => (adj.getD v []).length) :=
    Finset.sum_le_sum_of_subset hAsub
  have huA : u ∈ (Finset.range adj.length).filter
      (fun v => settledB s v = false) := by
    rw [Finset.mem_filter]
    exact ⟨Finset.mem_range.mpr hun, hunsU⟩
  have herase : (((Finset.range adj.length).filter
        (fun v => settledB s v = false)).erase u).sum
        (fun v => (adj.getD v []).length) + (adj.getD u []).length =
      ((Finset.range adj.length).filter
        (fun v => settledB s v = false)).sum
        (fun v => (adj.getD v []).length) :=
    Finset.sum_erase_add _ _ huA
  show _ + _ < _ + _
  have hh : ({ s with heap := rest } : DState).heap.length = rest.length := rfl
  rw [hh] at hheap
  omega

/-- A fresh pop's key equals the node's current distance. -/
theorem fresh_dist_eq {adj : List (List Edge)} {src : ℕ} {s : DState}
    {d : ℚ} {u : ℕ} (hInv : LoopInv adj src s) (hmem : (d, u) ∈ s.heap)
    (hfresh : cellGtB d (s.dist.getD u none) = false) :
    s.dist.getD u none = some d := by
  have h1 := hInv.heapLb _ hmem
  have h2 := cellGtB_false_iff.mp hfresh
  obtain ⟨x, hx, hxd⟩ := cLe_some_elim h1
  rw [hx] at h2 ⊢
  rw [cLe_some_iff] at h2
  congr 1
  linarith

/-! ### Optimality at the terminal states -/

theorem allFR_le {adj : List (List Edge)} {dist : List Cell} (hWF : WFadj adj)
    (hFR : ∀ v, v < adj.length → (dist.getD v none).isSome →
      FullyRelaxed adj dist v) :
    ∀ {p : List ℕ} {W : ℚ}, PathOn adj p W →
      ∀ {h₀ : ℕ} {x : ℚ}, p.head? = some h₀ → h₀ < adj.length →
        dist.getD h₀ none = some x →
        ∀ {t : ℕ}, p.getLast? = some t →
          cLe (dist.getD t none) (some (x + W)) := by
  intro p W hp
  induction hp with
  | single uu =>
    intro h₀ x hhead hlt hx t hlast
    have h1 : h₀ = uu := by simpa using hhead.symm
    have h2 : t = uu := by simpa using hlast.symm
    subst h1
    subst h2
    rw [hx, cLe_some_iff]
    linarith
  | cons he hrest ih =>
    intro h₀ x hhead hlt hx t hlast
    rename_i u v rest' w W'
    have h1 : h₀ = u := by simpa using hhead.symm
    subst h1
    obtain ⟨lab, hmem⟩ := he
    obtain ⟨x', hx', hrel⟩ := hFR h₀ hlt (by rw [hx]; rfl)
    have hxx : x' = x := by
      rw [hx] at hx'
      simpa using hx'.symm
    subst hxx
    have hvlt : v < adj.length := (hWF _ _ hmem).1
    have hww : 0 ≤ w := (hWF _ _ hmem).2
    have hdv := hrel (v, w, lab) hmem
    simp only at hdv
    obtain ⟨y, hy, hyd⟩ := cLe_some_elim hdv
    have hlast' : (v :: rest').getLast? = some t := by
      rw [← hlast]
      exact List.getLast?_cons_cons.symm
    have := ih (by simp) hvlt hy hlast'
    refine cLe_trans this ?_
    rw [cLe_some_iff]
    linarith

theorem break_le {adj : List (List Edge)} {src : ℕ} {s : DState}
    {d : ℚ} {dst : ℕ} {rest : List (ℚ × ℕ)}
    (hWF : WFadj adj) (hInv : LoopInv adj src s)
    (hpop : popMin s.heap = some ((d, dst), rest))
    (hfresh : cellGtB d (s.dist.getD dst none) = false) :
    ∀ {p : List ℕ} {W : ℚ}, PathOn adj p W →
      ∀ {h₀ : ℕ} {x : ℚ}, p.head? = some h₀ → h₀ < adj.length →
        s.dist.getD h₀ none = some x → p.getLast? = some dst →
          d ≤ x + W := by
  have hd : s.dist.getD dst none = some d :=
    fresh_dist_eq hInv (popMin_mem hpop) hfresh
  intro p W hp
  induction hp with
  | single uu =>
    intro h₀ x hhead hlt hx hlast
    have h1 : h₀ = uu := by simpa using hhead.symm
    have h2 : uu = dst := by simpa using hlast
    subst h1
    subst h2
    rw [hd] at hx
    have : x = d := by simpa using hx.symm
    subst this
    linarith
  | cons he hrest ih =>
    intro h₀ x hhead hlt hx hlast
    rename_i u v rest' w W'
    have h1 : h₀ = u := by simpa using hhead.symm
    subst h1
    obtain ⟨lab, hmem⟩ := he
    have hvlt : v < adj.length := (hWF _ _ hmem).1
    have hww : 0 ≤ w := (hWF _ _ hmem).2
    have hW' : 0 ≤ W' := PathOn_nonneg hWF hrest
    have hlast' : (v :: rest').getLast? = some dst := by
      rw [← hlast]
      exact List.getLast?_cons_cons.symm
    rcases hInv.pendSet h₀ hlt (by rw [hx]; rfl) with ⟨y, hy, hym⟩ | ⟨hFR, -⟩
    · have hyx : y = x := by
        rw [hx] at hy
        simpa using hy.symm
      subst hyx
      have hmin := (popMin_spec hpop).2 (y, h₀) hym
      rcases hmin with hlt2 | ⟨heq2, -⟩
      · simp only at hlt2
        linarith
      · simp only at heq2
        linarith
    · obtain ⟨x', hx', hrel⟩ := hFR
      have hxx : x' = x := by
        rw [hx] at hx'
        simpa using hx'.symm
      subst hxx
      have hdv := hrel (v, w, lab) hmem
      simp only at hdv
      obtain ⟨y, hy, hyd⟩ := cLe_some_elim hdv
      have := ih (by simp) hvlt hy hlast'
      linarith

/-! ### The loop postcondition -/

/-- What holds of the state the loop leaves behind: the reconstruction-related
invariants plus optimality of `dist[dst]` against every source-to-destination
path. -/
def LoopPost (adj : List (List Edge)) (src dst : ℕ) (t : DState) : Prop :=
  t.dist.length = adj.length ∧ t.prev.length = adj.length ∧
  t.dist.getD src none = some 0 ∧
  (∀ v, t.prev.getD v none = none → (t.dist.getD v none).isSome → v = src) ∧
  (∀ v u a, t.prev.getD v none = some (u, a) →
    ∃ w, (v, w, a) ∈ adj.getD u [] ∧
      cLe (cellAdd (t.dist.getD u none) w) (t.dist.getD v none)) ∧
  (∀ v, Grounded t.prev v) ∧
  (∀ p W, PathOn adj p W → p.head? = some src → p.getLast? = some dst →
    cLe (t.dist.getD dst none) (some W))

theorem post_of_empty {adj : List (List Edge)} {src dst : ℕ} {s : DState}
    (hWF : WFadj adj) (hsrc : src < adj.length)
    (hInv : LoopInv adj src s) (hemp : s.heap = []) :
    LoopPost adj src dst s := by
  refine ⟨hInv.distLen, hInv.prevLen, hInv.src0, hInv.rootSrc, hInv.linkEdge,
    hInv.grounded, ?_⟩
  intro p W hp hhead hlast
  have hFR : ∀ v, v < adj.length → (s.dist.getD v none).isSome →
      FullyRelaxed adj s.dist v := by
    intro v hv hsome
    rcases hInv.pendSet v hv hsome with ⟨x, -, hxm⟩ | ⟨hFR, -⟩
    · rw [hemp] at hxm
      exact absurd hxm (List.not_mem_nil _)
    · exact hFR
  have := allFR_le hWF hFR hp hhead hsrc hInv.src0 hlast
  simpa using this

/-- The main loop theorem: enough fuel plus the invariant give the
postcondition. -/
theorem loop_post {adj : List (List Edge)} (hWF : WFadj adj) {src dst : ℕ}
    (hsrc : src < adj.length) :
    ∀ (fuel : ℕ) (s : DState), LoopInv adj src s → phi adj s ≤ fuel →
      LoopPost adj src dst (dijkstraLoop adj dst fuel s) := by
  intro fuel
  induction fuel with
  | zero =>
    intro s hInv hphi
    have hemp : s.heap = [] := by
      have h1 : s.heap.length = 0 := by
        have : s.heap.length ≤ phi adj s := Nat.le_add_right _ _
        omega
      exact List.length_eq_zero.mp h1
    exact post_of_empty hWF hsrc hInv hemp
  | succ fuel ih =>
    intro s hInv hphi
    rcases hpop : popMin s.heap with _ | ⟨⟨d, u⟩, rest⟩
    · rw [dijkstraLoop_pop_none hpop]
      exact post_of_empty hWF hsrc hInv (popMin_eq_none.mp hpop)
    · rcases hstale : cellGtB d (s.dist.getD u none) with _ | _
      · by_cases hdst : u = dst
        · subst hdst
          rw [dijkstraLoop_break hpop hstale]
          have hd : s.dist.getD u none = some d :=
            fresh_dist_eq hInv (popMin_mem hpop) hstale
          refine ⟨hInv.distLen, hInv.prevLen, hInv.src0, hInv.rootSrc,
            hInv.linkEdge, hInv.grounded, ?_⟩
          intro p W hp hhead hlast
          have hDW := break_le hWF hInv hpop hstale hp hhead hsrc hInv.src0 hlast
          show cLe (s.dist.getD u none) (some W)
          rw [hd, cLe_some_iff]
          linarith
        · rw [dijkstraLoop_fresh hpop hstale hdst]
          refine ih _ ?_ ?_
          · exact loopInv_exit
              (relaxInv_fold hWF (adj.getD u []) [] _
                (relaxInv_entry hInv hpop hstale) (by simp))
          · have := phi_fresh_lt hWF hInv hpop hstale
            omega
      · rw [dijkstraLoop_stale hpop hstale]
        refine ih _ (loopInv_stale hInv hpop hstale) ?_
        have hlt : phi adj { s with heap := rest } < phi adj s := phi_stale_lt hpop
        omega

theorem getD_replicate_self {α : Type} (a : α) (n i : ℕ) :
    (List.replicate n a).getD i a = a := by
  by_cases h : i < n
  · exact getD_replicate _ _ h
  · exact List.getD_eq_default _ _ (by simpa using Nat.le_of_not_lt h)

theorem initState_dist {n src v : ℕ} :
    (initState n src).dist.getD v none =
      if v = src ∧ src < n then some 0 else none := by
  unfold initState
  by_cases hv : v = src
  · subst hv
    by_cases hs : v < n
    · rw [if_pos ⟨rfl, hs⟩]
      exact getD_set_self _ _ _ _ (by simpa using hs)
    · rw [if_neg (fun hh => hs hh.2)]
      rw [List.set_eq_of_length_le (by simpa using Nat.le_of_not_lt hs)]
      exact getD_replicate_self _ _ _
  · rw [if_neg (fun hh => hv hh.1)]
    rw [getD_set_ne _ _ _ (fun hh => hv hh.symm)]
    exact getD_replicate_self _ _ _

theorem loopInv_init {adj : List (List Edge)} {src : ℕ}
    (hsrc : src < adj.length) :
    LoopInv adj src (initState adj.length src) := by
  have hdist : ∀ v, (initState adj.length src).dist.getD v none =
      if v = src then some 0 else none := by
    intro v
    rw [initState_dist]
    by_cases hv : v = src
    · simp [hv, hsrc]
    · simp [hv]
  have hprev : ∀ v, (initState adj.length src).prev.getD v none = none :=
    fun v => getD_replicate_self _ _ _
  refine ⟨by simp [initState], by simp [initState], ?_, ?_, ?_, ?_, ?_, ?_, ?_, ?_⟩
  · rw [hdist]
    simp
  · intro p hp
    have : p = ((0 : ℚ), src) := by simpa [initState] using hp
    subst this
    exact ⟨le_refl _, hsrc⟩
  · intro p hp
    have : p = ((0 : ℚ), src) := by simpa [initState] using hp
    subst this
    show cLe _ (some 0)
    rw [hdist]
    simp [cLe]
  · intro v x hvx
    rw [hdist] at hvx
    by_cases hv : v = src
    · subst hv
      rw [if_pos rfl] at hvx
      have hx : x = 0 := by simpa using hvx.symm
      subst hx
      show cnt (0, v) [(0, v)] ≤ 1
      simp [cnt, List.countP_cons]
    · rw [if_neg hv] at hvx
      exact absurd hvx (by simp)
  · intro v hvn hvsome
    rw [hdist] at hvsome
    by_cases hv : v = src
    · subst hv
      left
      refine ⟨0, ?_, ?_⟩
      · rw [hdist]
        simp
      · show ((0 : ℚ), v) ∈ [((0 : ℚ), v)]
        simp
    · rw [if_neg hv] at hvsome
      exact absurd hvsome (by simp)
  · intro v hn hvsome
    rw [hdist] at hvsome
    by_cases hv : v = src
    · exact hv
    · rw [if_neg hv] at hvsome
      exact absurd hvsome (by simp)
  · intro v u a hlk
    rw [hprev] at hlk
    exact absurd hlk (by simp)
  · intro v
    exact Grounded.root v (hprev v)

/-! ### Chains of the predecessor trace -/

/-- The explicit list of nodes a backward walk visits: starts anywhere,
follows `prev` links, ends at a `None` link. -/
inductive IsChainL (prev : List PrevE) : List ℕ → Prop where
  | root (v : ℕ) (h : prev.getD v none = none) : IsChainL prev [v]
  | step {v u : ℕ} {a : Option String} {l : List ℕ}
      (h : prev.getD v none = some (u, a)) (hl : IsChainL prev l)
      (hhd : l.head? = some u) : IsChainL prev (v :: l)

theorem chainL_ne_nil {prev : List PrevE} {l : List ℕ}
    (h : IsChainL prev l) : l ≠ [] := by
  cases h <;> simp

theorem chainL_of_grounded {prev : List PrevE} {v : ℕ}
    (h : Grounded prev v) : ∃ l, IsChainL prev l ∧ l.head? = some v := by
  induction h with
  | root v h => exact ⟨[v], IsChainL.root v h, rfl⟩
  | step v u a h hu ih =>
    obtain ⟨l, hl, hhd⟩ := ih
    exact ⟨v :: l, IsChainL.step h hl hhd, rfl⟩

theorem chainL_unique {prev : List PrevE} :
    ∀ {l₁ : List ℕ}, IsChainL prev l₁ → ∀ {l₂ : List ℕ}, IsChainL prev l₂ →
      l₁.head? = l₂.head? → l₁ = l₂ := by
  intro l₁ h₁
  induction h₁ with
  | root v h =>
    intro l₂ h₂ hh
    cases h₂ with
    | root v' h' =>
      have : v = v' := by simpa using hh
      rw [this]
    | step h' hl' hhd' =>
      rename_i v' u' a' l'
      have hvv : v = v' := by simpa using hh
      rw [hvv] at h
      rw [h] at h'
      exact absurd h' (by simp)
  | step h hl hhd ih =>
    rename_i v u a l
    intro l₂ h₂ hh
    cases h₂ with
    | root v' h' =>
      have hvv : v = v' := by simpa using hh
      rw [hvv] at h
      rw [h] at h'
      exact absurd h' (by simp)
    | step h' hl' hhd' =>
      rename_i v' u' a' l'
      have hvv : v = v' := by simpa using hh
      subst hvv
      rw [h] at h'
      obtain ⟨hu, -⟩ : u' = u ∧ a' = a := by
        have := Option.some.inj h'
        exact ⟨by simpa using (congrArg Prod.fst this).symm,
          by simpa using (congrArg Prod.snd this).symm⟩
      subst hu
      rw [ih hl' (by rw [hhd, hhd'])]

theorem chainL_suffix_of_mem {prev : List PrevE} :
    ∀ {l : List ℕ}, IsChainL prev l → ∀ x ∈ l,
      ∃ l', IsChainL prev l' ∧ l'.head? = some x ∧ l'.length ≤ l.length := by
  intro l hch
  induction hch with
  | root v h =>
    intro x hx
    have : x = v := by simpa using hx
    subst this
    exact ⟨[x], IsChainL.root x h, rfl, le_refl _⟩
  | step h hl hhd ih =>
    rename_i v u a l
    intro x hx
    rcases List.mem_cons.mp hx with rfl | hx'
    · exact ⟨x :: l, IsChainL.step h hl hhd, rfl, le_refl _⟩
    · obtain ⟨l', h1, h2, h3⟩ := ih x hx'
      exact ⟨l', h1, h2, by simpa using Nat.le_succ_of_le h3⟩

theorem chainL_nodup {prev : List PrevE} :
    ∀ {l : List ℕ}, IsChainL prev l → l.Nodup := by
  intro l hch
  induction hch with
  | root v h => simp
  | step h hl hhd ih =>
    rename_i v u a l
    rw [List.nodup_cons]
    refine ⟨?_, ih⟩
    intro hv
    obtain ⟨l', h1, h2, h3⟩ := chainL_suffix_of_mem hl v hv
    have := chainL_unique (IsChainL.step h hl hhd) h1 (by rw [h2]; rfl)
    rw [← this] at h3
    simp only [List.length_cons] at h3
    omega

theorem chainL_mem_bound {prev : List PrevE} {n : ℕ} :
    ∀ {l : List ℕ}, IsChainL prev l →
      (∀ v u a, prev.getD v none = some (u, a) → u < n) →
      (∀ h₀, l.head? = some h₀ → h₀ < n) → ∀ x ∈ l, x < n := by
  intro l hch
  induction hch with
  | root v h =>
    intro hlink hhd x hx
    have : x = v := by simpa using hx
    subst this
    exact hhd x rfl
  | step h hl hhd ih =>
    rename_i v u a l
    intro hlink hhd0 x hx
    rcases List.mem_cons.mp hx with rfl | hx'
    · exact hhd0 x rfl
    · refine ih hlink ?_ x hx'
      intro h₀ hh
      rw [hhd] at hh
      exact (Option.some.inj hh) ▸ hlink v u a h

theorem nodup_lt_length_le {l : List ℕ} {n : ℕ}
    (hnd : l.Nodup) (hb : ∀ x ∈ l, x < n) : l.length ≤ n := by
  classical
  have h1 : l.toFinset.card = l.length := List.toFinset_card_of_nodup hnd
  have h2 : l.toFinset ⊆ Finset.range n := by
    intro x hx
    rw [Finset.mem_range]
    exact hb x (List.mem_toFinset.mp hx)
  have := Finset.card_le_card h2
  rw [h1, Finset.card_range] at this
  exact this

theorem backtrack_eq_chain {prev : List PrevE} :
    ∀ {l : List ℕ}, IsChainL prev l → ∀ v, l.head? = some v →
      ∀ f, l.length ≤ f + 1 → backtrack prev f v = l := by
  intro l hch
  induction hch with
  | root v0 h =>
    intro v hv f hf
    have : v = v0 := by simpa using hv.symm
    subst this
    cases f with
    | zero => rfl
    | succ f' =>
      show backtrack prev (f' + 1) v = [v]
      conv_lhs => rw [backtrack]
      rw [h]
  | step h hl hhd ih =>
    rename_i v0 u a l
    intro v hv f hf
    have : v = v0 := by simpa using hv.symm
    subst this
    have hlnn : l ≠ [] := chainL_ne_nil hl
    have hlpos : 1 ≤ l.length := by
      cases l with
      | nil => exact absurd rfl hlnn
      | cons x xs => simp
    have hlen : l.length + 1 ≤ f + 1 := by simpa using hf
    cases f with
    | zero => omega
    | succ f' =>
      show backtrack prev (f' + 1) v = v :: l
      conv_lhs => rw [backtrack]
      rw [h]
      show v :: backtrack prev f' u = v :: l
      rw [ih u hhd f' (by omega)]

/-- A predecessor chain, reversed, is a path of the graph whose weight is
bounded by the head's distance minus the root's distance. -/
theorem chain_path {adj : List (List Edge)} {dist : List Cell}
    {prev : List PrevE}
    (hlink : ∀ v u a, prev.getD v none = some (u, a) →
      ∃ w, (v, w, a) ∈ adj.getD u [] ∧
        cLe (cellAdd (dist.getD u none) w) (dist.getD v none)) :
    ∀ {l : List ℕ}, IsChainL prev l → ∀ {v : ℕ} {dv : ℚ},
      l.head? = some v → dist.getD v none = some dv →
      ∃ r dr W, l.getLast? = some r ∧ dist.getD r none = some dr ∧
        prev.getD r none = none ∧ PathOn adj l.reverse W ∧ dr + W ≤ dv := by
  intro l hch
  induction hch with
  | root v0 h =>
    intro v dv hv hdv
    have : v = v0 := by simpa using hv.symm
    subst this
    exact ⟨v, dv, 0, rfl, hdv, h, by simpa using PathOn.single v, by linarith⟩
  | step h hl hhd ih =>
    rename_i v0 u a l
    intro v dv hv hdv
    have : v = v0 := by simpa using hv.symm
    subst this
    obtain ⟨w, hmem, hrel⟩ := hlink v u a h
    rw [hdv] at hrel
    rcases hdu : dist.getD u none with _ | du
    · rw [hdu] at hrel
      exact absurd hrel cLe_none_some
    · rw [hdu] at hrel
      have hduw : du + w ≤ dv := by
        simpa [cellAdd, cLe] using hrel
      obtain ⟨r, dr, W, hlast, hdr, hroot, hpath, hsum⟩ := ih hhd hdu
      refine ⟨r, dr, W + w, ?_, hdr, hroot, ?_, by linarith⟩
      · rw [← hlast]
        cases l with
        | nil => exact absurd rfl (chainL_ne_nil hl)
        | cons x xs => exact List.getLast?_cons_cons
      · rw [List.reverse_cons]
        refine PathOn_append_edge hpath ?_ ⟨a, hmem⟩
        rw [List.getLast?_reverse]
        exact hhd

/-! ### Full runs of the search loop -/

theorem engine_post {adj : List (List Edge)} (hWF : WFadj adj) {src dst : ℕ}
    (hsrc : src < adj.length) :
    LoopPost adj src dst
      (dijkstraLoop adj dst (dijkstraFuel adj) (initState adj.length src)) := by
  refine loop_post hWF hsrc _ _ (loopInv_init hsrc) ?_
  have := phi_init_le adj src
  unfold dijkstraFuel
  omega

/-- From a successful terminal state, the reconstructed vertex sequence is a
source-to-destination path of weight exactly `total`. -/
theorem engine_reconstruct {adj : List (List Edge)} {src dst : ℕ}
    (hdst : dst < adj.length) {t : DState}
    (hpost : LoopPost adj src dst t) {total : ℚ}
    (htot : t.dist.getD dst none = some total) :
    PathOn adj ((backtrack t.prev adj.length dst).reverse) total ∧
    ((backtrack t.prev adj.length dst).reverse).head? = some src ∧
    ((backtrack t.prev adj.length dst).reverse).getLast? = some dst := by
  obtain ⟨hdl, hpl, hsrc0, hroot, hlink, hgr, hopt⟩ := hpost
  obtain ⟨l, hch, hhd⟩ := chainL_of_grounded (hgr dst)
  have hnodes : ∀ x ∈ l, x < adj.length := by
    refine chainL_mem_bound hch ?_ ?_
    · intro v u a hl
      obtain ⟨w, hmem, -⟩ := hlink v u a hl
      exact mem_getD_lt hmem
    · intro h₀ hh
      rw [hhd] at hh
      exact (Option.some.inj hh) ▸ hdst
  have hlen : l.length ≤ adj.length := nodup_lt_length_le (chainL_nodup hch) hnodes
  have hbt : backtrack t.prev adj.length dst = l :=
    backtrack_eq_chain hch dst hhd adj.length (by omega)
  obtain ⟨r, dr, W, hlast, hdr, hrootr, hpath, hsum⟩ := chain_path hlink hch hhd htot
  have hrsrc : r = src := hroot r hrootr (by rw [hdr]; rfl)
  rw [hrsrc] at hlast hdr
  have hdr0 : dr = 0 := by
    rw [hsrc0] at hdr
    simpa using hdr.symm
  subst hdr0
  have hWtot : W ≤ total := by linarith
  have hhead' : l.reverse.head? = some src := by
    rw [List.head?_reverse]
    exact hlast
  have hlast' : l.reverse.getLast? = some dst := by
    rw [List.getLast?_reverse]
    exact hhd
  have hge := hopt l.reverse W hpath hhead' hlast'
  rw [htot, cLe_some_iff] at hge
  have hWe : W = total := le_antisymm hWtot hge
  rw [hbt]
  exact ⟨hWe ▸ hpath, hhead', hlast'⟩

/-! ### Non-negative tables and well-formedness of built graphs -/

/-- A cell is non-negative when finite. -/
def cellNonneg (c : Cell) : Prop :=
  match c with
  | none => True
  | some q => 0 ≤ q

instance : ∀ c : Cell, Decidable (cellNonneg c)
  | none => isTrue trivial
  | some q => inferInstanceAs (Decidable (0 ≤ q))

/-- The spec's standing assumption: every precomputed hub-distance cell in
the table is non-negative whenever it is finite. -/
def NonnegTable (df : List Row) : Prop :=
  ∀ r ∈ df, cellNonneg r.dDoha ∧ cellNonneg r.dDubai ∧ cellNonneg r.dAbuDhabi

instance (df : List Row) : Decidable (NonnegTable df) :=
  List.decidableBAll _ df

theorem cellNonneg_elim {c : Cell} {q : ℚ} (h : cellNonneg c)
    (he : c = some q) : 0 ≤ q := by
  subst he
  exact h

theorem distRow_mem_or_default (df : List Row) (name : String) :
    distRow df name ∈ df ∨ distRow df name = default := by
  unfold distRow
  rcases hf : df.find? (fun r => r.city = name) with _ | r
  · right
    rw [hf]
    rfl
  · left
    rw [hf]
    exact List.mem_of_find?_eq_some hf

theorem dist_lookup_nonneg {df : List Row} (hnn : NonnegTable df)
    {a b : String} {q : ℚ} (h : dist_lookup df a b = some q) : 0 ≤ q := by
  have hrow : ∀ name, cellNonneg (distRow df name).dDoha ∧
      cellNonneg (distRow df name).dDubai ∧
      cellNonneg (distRow df name).dAbuDhabi := by
    intro name
    rcases distRow_mem_or_default df name with hm | hd
    · exact hnn _ hm
    · rw [hd]
      exact ⟨trivial, trivial, trivial⟩
  unfold dist_lookup at h
  split_ifs at h
  · have h0 : (0 : ℚ) = q := Option.some.inj h
    rw [← h0]
  · exact cellNonneg_elim (hrow b).1 h
  · exact cellNonneg_elim (hrow b).2.1 h
  · exact cellNonneg_elim (hrow b).2.2 h
  · exact cellNonneg_elim (hrow a).1 h
  · exact cellNonneg_elim (hrow a).2.1 h
  · exact cellNonneg_elim (hrow a).2.2 h

theorem build_adj_length {df : List Row} {airlines : List String}
    {adj : List (List Edge)} {c2i : String → Option ℕ} {i2c : ℕ → String}
    {df' : List Row}
    (hb : build_graph df airlines = some (adj, c2i, i2c, df')) :
    adj.length = (df.map Row.city).length := by
  obtain ⟨-, hadj, -, -, -⟩ := build_graph_elim hb
  rw [hadj, length_pushList, List.length_replicate]

/-- A graph built from a non-negative table is well-formed: every edge's
target index is in range and its weight is non-negative. -/
theorem build_graph_WF {df : List Row} {airlines : List String}
    {adj : List (List Edge)} {c2i : String → Option ℕ} {i2c : ℕ → String}
    {df' : List Row}
    (hb : build_graph df airlines = some (adj, c2i, i2c, df'))
    (hnn : NonnegTable df) : WFadj adj := by
  intro u e he
  rw [build_adj_mem hb] at he
  constructor
  · rw [build_adj_length hb]
    exact (buildGen_fst_lt he).2
  · obtain ⟨a, -, hub, hi, -, -, c, -, hcg⟩ := mem_buildGen_iff.mp he
    obtain ⟨-, -, ci, d, -, hdist, hpair⟩ := mem_cityGen_iff.mp hcg
    have hd : 0 ≤ d := dist_lookup_nonneg hnn hdist
    rcases hpair with hp | hp
    · have hpe : e = (ci, d, some a) := congrArg Prod.snd hp
      rw [hpe]
      exact hd
    · have hpe : e = (hi, d, some a) := congrArg Prod.snd hp
      rw [hpe]
      exact hd

theorem build_c2i_lt {df : List Row} {airlines : List String}
    {adj : List (List Edge)} {c2i : String → Option ℕ} {i2c : ℕ → String}
    {df' : List Row}
    (hb : build_graph df airlines = some (adj, c2i, i2c, df')) :
    ∀ name i, c2i name = some i → i < adj.length := by
  obtain ⟨-, -, hc2i, -, -⟩ := build_graph_elim hb
  subst hc2i
  intro name i h
  rw [build_adj_length hb]
  exact (cityDict_some_facts h).2.1

theorem build_i2c_of_c2i {df : List Row} {airlines : List String}
    {adj : List (List Edge)} {c2i : String → Option ℕ} {i2c : ℕ → String}
    {df' : List Row} {name : String} {i : ℕ}
    (hb : build_graph df airlines = some (adj, c2i, i2c, df'))
    (h : c2i name = some i) : i2c i = name := by
  obtain ⟨-, -, hc2i, hi2c, -⟩ := build_graph_elim hb
  subst hc2i
  subst hi2c
  exact (cityDict_some_facts h).2.2

/-- A bounded boolean scan suffices to establish `WFadj`. -/
theorem WFadj_of_all {adj : List (List Edge)}
    (h : adj.all (fun es => es.all (fun e =>
      decide (e.1 < adj.length) && decide (0 ≤ e.2.1))) = true) :
    WFadj adj := by
  rw [List.all_eq_true] at h
  intro u e he
  rcases Nat.lt_or_ge u adj.length with hu | hu
  · have hget : adj.getD u [] = adj.get ⟨u, hu⟩ := by
      rw [List.getD_eq_getD_get?, List.get?_eq_get hu]
      rfl
    have hrow : adj.getD u [] ∈ adj := by
      rw [hget]
      apply List.get_mem
    have h2 := h _ hrow
    rw [List.all_eq_true] at h2
    have h3 := h2 e he
    simp only [Bool.and_eq_true, decide_eq_true_eq] at h3
    exact h3
  · rw [List.getD_eq_default _ _ hu] at he
    exact absurd he (List.not_mem_nil e)

/-! ### Eliminating a run of the search front-ends -/

theorem aware_none_of_lookup {adj : List (List Edge)}
    {c2i : String → Option ℕ} {i2c : ℕ → String} {source dest : String}
    {airlines : List String}
    (h : c2i source = none ∨ c2i dest = none) :
    dijkstra_airline_aware adj c2i i2c source dest airlines = none := by
  unfold dijkstra_airline_aware
  rcases h with h | h
  · rw [h]
  · rw [h]
    rcases hs : c2i source with _ | s <;> rfl

theorem std_none_of_lookup {adj : List (List Edge)}
    {c2i : String → Option ℕ} {i2c : ℕ → String} {source dest : String}
    (h : c2i source = none ∨ c2i dest = none) :
    dijkstra_standard adj c2i i2c source dest = none := by
  unfold dijkstra_standard
  rcases h with h | h
  · rw [h]
  · rw [h]
    rcases hs : c2i source with _ | s <;> rfl

theorem aware_some_lookup {adj : List (List Edge)}
    {c2i : String → Option ℕ} {i2c : ℕ → String} {source dest : String}
    {airlines : List String} {r : ℚ × List String × List Seg}
    (hres : dijkstra_airline_aware adj c2i i2c source dest airlines = some r) :
    ∃ src dst, c2i source = some src ∧ c2i dest = some dst := by
  rcases hs : c2i source with _ | src
  · rw [aware_none_of_lookup (Or.inl hs)] at hres
    exact absurd hres (by simp)
  · rcases hd : c2i dest with _ | dst
    · rw [aware_none_of_lookup (Or.inr hd)] at hres
      exact absurd hres (by simp)
    · exact ⟨src, dst, rfl, rfl⟩

theorem aware_some_elim {adj : List (List Edge)} {c2i : String → Option ℕ}
    {i2c : ℕ → String} {source dest : String} {airlines : List String}
    {total : ℚ} {cities : List String} {segs : List Seg} {src dst : ℕ}
    (hsrcl : c2i source = some src) (hdstl : c2i dest = some dst)
    (hres : dijkstra_airline_aware adj c2i i2c source dest airlines =
      some (total, cities, segs)) :
    ∃ t pidx,
      t = dijkstraLoop adj dst (dijkstraFuel adj) (initState adj.length src) ∧
      pidx = (backtrack t.prev adj.length dst).reverse ∧
      t.dist.getD dst none = some total ∧
      cities = pidx.map i2c ∧ segs = mkSegs t.prev i2c pidx := by
  unfold dijkstra_airline_aware at hres
  simp only [hsrcl, hdstl] at hres
  rcases hdd : (dijkstraLoop adj dst (dijkstraFuel adj)
      (initState adj.length src)).dist.getD dst none with _ | t'
  · rw [hdd] at hres
    simp at hres
  · rw [hdd] at hres
    simp only [Option.some.injEq, Prod.mk.injEq] at hres
    obtain ⟨h1, h2, h3⟩ := hres
    exact ⟨_, _, rfl, rfl, h1 ▸ hdd, h2.symm, h3.symm⟩

theorem aware_none_iff {adj : List (List Edge)} {c2i : String → Option ℕ}
    {i2c : ℕ → String} {source dest : String} {airlines : List String}
    {src dst : ℕ}
    (hsrcl : c2i source = some src) (hdstl : c2i dest = some dst) :
    (dijkstra_airline_aware adj c2i i2c source dest airlines = none ↔
      (dijkstraLoop adj dst (dijkstraFuel adj)
        (initState adj.length src)).dist.getD dst none = none) := by
  unfold dijkstra_airline_aware
  simp only [hsrcl, hdstl]
  rcases hdd : (dijkstraLoop adj dst (dijkstraFuel adj)
      (initState adj.length src)).dist.getD dst none with _ | t'
  · simp
  · simp

/-! ### The segment list of a reconstruction -/

theorem zip_tail_map (f : ℕ → String) :
    ∀ l : List ℕ, ((l.map f).zip (l.map f).tail) =
      (l.zip l.tail).map (fun p => (f p.1, f p.2))
  | [] => rfl
  | [_] => rfl
  | x :: y :: ys => by
    have ih := zip_tail_map f (y :: ys)
    show (f x, f y) :: ((y :: ys).map f).zip (((y :: ys).map f).tail) =
      (f x, f y) :: ((y :: ys).zip ((y :: ys).tail)).map (fun p => (f p.1, f p.2))
    rw [ih]

/-- The from/to names of the produced legs are exactly the consecutive
pairs of the produced city sequence. -/
theorem mkSegs_edges (prev : List PrevE) (i2c : ℕ → String) (l : List ℕ) :
    (mkSegs prev i2c l).map (fun g => (g.1, g.2.1)) =
      (l.map i2c).zip ((l.map i2c).tail) := by
  rw [zip_tail_map]
  unfold mkSegs
  rw [List.map_map]
  rfl

/-- Consecutive legs chain: the to-city of each leg is the from-city of the
next one. -/
theorem mkSegs_chain (prev : List PrevE) (i2c : ℕ → String) :
    ∀ (l : List ℕ) (k : ℕ), k + 1 < (mkSegs prev i2c l).length →
      ((mkSegs prev i2c l).getD k ("", "", none)).2.1 =
      ((mkSegs prev i2c l).getD (k + 1) ("", "", none)).1
  | [], k, hk => by simp [mkSegs] at hk
  | [x], k, hk => by simp [mkSegs] at hk
  | x :: y :: ys, k, hk => by
    have hcons : mkSegs prev i2c (x :: y :: ys) =
        (i2c x, i2c y,
          match prev.getD y none with
          | some pr => pr.2
          | none => none) :: mkSegs prev i2c (y :: ys) := rfl
    rw [hcons] at hk ⊢
    cases k with
    | zero =>
      rw [List.getD_cons_zero, List.getD_cons_succ]
      cases ys with
      | nil =>
        rw [List.length_cons] at hk
        simp [mkSegs] at hk
      | cons z zs => rfl
    | succ k' =>
      rw [List.getD_cons_succ, List.getD_cons_succ]
      refine mkSegs_chain prev i2c (y :: ys) k' ?_
      rw [List.length_cons] at hk
      omega

theorem head_map_of_head {l : List ℕ} {f : ℕ → String} {s : ℕ}
    (h : l.head? = some s) : (l.map f).head? = some (f s) := by
  cases l with
  | nil => simp at h
  | cons a xs =>
    have ha : a = s := by simpa using h
    subst ha
    rfl

theorem last_map_of_last {l : List ℕ} {f : ℕ → String} {s : ℕ}
    (h : l.getLast? = some s) : (l.map f).getLast? = some (f s) := by
  have h1 : l.reverse.head? = some s := by
    rw [List.head?_reverse]
    exact h
  have h2 : (l.reverse.map f).head? = some (f s) := head_map_of_head h1
  rw [List.map_reverse, List.head?_reverse] at h2
  exact h2

/-! ## Claim C4 — internal consistency of a successful result -/

/-- C4: whenever `dijkstra_airline_aware` returns a result, the returned city
sequence is the name image of a vertex path of the graph whose edge-weight
sum equals the reported total, the leg sequence lists exactly the consecutive
city pairs of that sequence (so each leg's from-city is the previous leg's
to-city), and the city sequence starts at the requested source and ends at
the requested destination.  Hypotheses: well-formed graph, in-range indices
and coherent names for source and destination (Python would raise an
IndexError otherwise). -/
theorem dijkstra_result_consistent {adj : List (List Edge)}
    {c2i : String → Option ℕ} {i2c : ℕ → String} {source dest : String}
    {airlines : List String} {total : ℚ} {cities : List String}
    {segs : List Seg} {src dst : ℕ}
    (hWF : WFadj adj)
    (hsrcl : c2i source = some src) (hdstl : c2i dest = some dst)
    (hsrc : src < adj.length) (hdst : dst < adj.length)
    (hsname : i2c src = source) (hdname : i2c dst = dest)
    (hres : dijkstra_airline_aware adj c2i i2c source dest airlines =
      some (total, cities, segs)) :
    ∃ pidx : List ℕ,
      PathOn adj pidx total ∧ cities = pidx.map i2c ∧
      segs.map (fun g => (g.1, g.2.1)) = cities.zip cities.tail ∧
      (∀ k, k + 1 < segs.length →
        (segs.getD k ("", "", none)).2.1 =
        (segs.getD (k + 1) ("", "", none)).1) ∧
      cities.head? = some source ∧ cities.getLast? = some dest := by
  obtain ⟨t, pidx, ht, hpidx, hdd, hc, hs⟩ := aware_some_elim hsrcl hdstl hres
  have hpost : LoopPost adj src dst t := by
    rw [ht]
    exact engine_post hWF hsrc
  have hrec := engine_reconstruct hdst hpost hdd
  rw [← hpidx] at hrec
  obtain ⟨hpath, hhead, hlast⟩ := hrec
  refine ⟨pidx, hpath, hc, ?_, ?_, ?_, ?_⟩
  · rw [hs, hc]
    exact mkSegs_edges t.prev i2c pidx
  · rw [hs]
    exact mkSegs_chain t.prev i2c pidx
  · rw [hc, head_map_of_head hhead, hsname]
  · rw [hc, last_map_of_last hlast, hdname]

/-- The built concrete graph is well-formed. -/
theorem adjW_WF : WFadj adjW := WFadj_of_all (by decide)

/-- Indices returned by the concrete name map are in range. -/
theorem c2iW_lt :
    ∀ name i, cityDict 0 (dfW.map Row.city) name = some i → i < adjW.length := by
  intro name i h
  rw [build_adj_length build_graph_dfW]
  exact (cityDict_some_facts h).2.1

/-- C4 witness: the concrete London→Doha run on the two-node graph. -/
theorem dijkstra_result_consistent_witness :
    ∃ pidx : List ℕ,
      PathOn adjW pidx 3000 ∧
      (["London", "Doha"] : List String) =
        pidx.map (indexToCity (dfW.map Row.city)) ∧
      ([("London", "Doha", some "Qatar Airways")] : List Seg).map
          (fun g => (g.1, g.2.1)) =
        (["London", "Doha"] : List String).zip
          (["London", "Doha"] : List String).tail ∧
      (∀ k, k + 1 < ([("London", "Doha", some "Qatar Airways")] : List Seg).length →
        (([("London", "Doha", some "Qatar Airways")] : List Seg).getD k
          ("", "", none)).2.1 =
        (([("London", "Doha", some "Qatar Airways")] : List Seg).getD (k + 1)
          ("", "", none)).1) ∧
      (["London", "Doha"] : List String).head? = some "London" ∧
      (["London", "Doha"] : List String).getLast? = some "Doha" := by
  have hS : dijkstra_airline_aware adjW (cityDict 0 (dfW.map Row.city))
      (indexToCity (dfW.map Row.city)) "London" "Doha" [] =
      some (3000, ["London", "Doha"], [("London", "Doha", some "Qatar Airways")]) := by
    with_unfolding_all rfl
  have hsl : cityDict 0 (dfW.map Row.city) "London" = some 1 := by decide
  have hdl : cityDict 0 (dfW.map Row.city) "Doha" = some 0 := by decide
  have hl1 : (1 : ℕ) < adjW.length := by decide
  have hl0 : (0 : ℕ) < adjW.length := by decide
  have hn1 : indexToCity (dfW.map Row.city) 1 = "London" := by decide
  have hn0 : indexToCity (dfW.map Row.city) 0 = "Doha" := by decide
  exact dijkstra_result_consistent adjW_WF hsl hdl hl1 hl0 hn1 hn0 hS

/-! ## Claim C1 — optimality on built graphs -/

/-- C1: on a graph built by `build_graph` from a non-negative distance table,
whenever `dijkstra_airline_aware` returns a result for a source and
destination present in the name-to-index mapping, the reported total is the
minimum edge-weight sum over all paths of the graph from the source's node
to the destination's node, and the returned city sequence is the name image
of a path attaining that minimum. -/
theorem dijkstra_airline_aware_optimal {df : List Row}
    {builtAirlines : List String} {adj : List (List Edge)}
    {c2i : String → Option ℕ} {i2c : ℕ → String} {df' : List Row}
    {source dest : String} {airlines : List String} {total : ℚ}
    {cities : List String} {segs : List Seg} {src dst : ℕ}
    (hb : build_graph df builtAirlines = some (adj, c2i, i2c, df'))
    (hnn : NonnegTable df)
    (hsrcl : c2i source = some src) (hdstl : c2i dest = some dst)
    (hres : dijkstra_airline_aware adj c2i i2c source dest airlines =
      some (total, cities, segs)) :
    (∃ pidx : List ℕ, cities = pidx.map i2c ∧ PathOn adj pidx total ∧
      pidx.head? = some src ∧ pidx.getLast? = some dst ∧
      cities.head? = some source ∧ cities.getLast? = some dest) ∧
    (∀ p W, PathOn adj p W → p.head? = some src → p.getLast? = some dst →
      total ≤ W) := by
  have hWF : WFadj adj := build_graph_WF hb hnn
  have hsrc : src < adj.length := build_c2i_lt hb source src hsrcl
  have hdst : dst < adj.length := build_c2i_lt hb dest dst hdstl
  have hsname : i2c src = source := build_i2c_of_c2i hb hsrcl
  have hdname : i2c dst = dest := build_i2c_of_c2i hb hdstl
  obtain ⟨t, pidx, ht, hpidx, hdd, hc, hs⟩ := aware_some_elim hsrcl hdstl hres
  have hpost : LoopPost adj src dst t := by
    rw [ht]
    exact engine_post hWF hsrc
  have hrec := engine_reconstruct hdst hpost hdd
  rw [← hpidx] at hrec
  obtain ⟨hpath, hhead, hlast⟩ := hrec
  constructor
  · refine ⟨pidx, hc, hpath, hhead, hlast, ?_, ?_⟩
    · rw [hc, head_map_of_head hhead, hsname]
    · rw [hc, last_map_of_last hlast, hdname]
  · intro p W hp hph hpl
    have hle := hpost.2.2.2.2.2.2 p W hp hph hpl
    rw [hdd] at hle
    exact cLe_some_iff.mp hle

/-- C1 witness: the concrete London→Doha run is optimal with total 3000. -/
theorem dijkstra_airline_aware_optimal_witness :
    (∃ pidx : List ℕ, (["London", "Doha"] : List String) =
        pidx.map (indexToCity (dfW.map Row.city)) ∧
      PathOn adjW pidx 3000 ∧ pidx.head? = some 1 ∧ pidx.getLast? = some 0 ∧
      (["London", "Doha"] : List String).head? = some "London" ∧
      (["London", "Doha"] : List String).getLast? = some "Doha") ∧
    (∀ p W, PathOn adjW p W → p.head? = some 1 → p.getLast? = some 0 →
      (3000 : ℚ) ≤ W) := by
  have hS : dijkstra_airline_aware adjW (cityDict 0 (dfW.map Row.city))
      (indexToCity (dfW.map Row.city)) "London" "Doha" [] =
      some (3000, ["London", "Doha"], [("London", "Doha", some "Qatar Airways")]) := by
    with_unfolding_all rfl
  have hsl : cityDict 0 (dfW.map Row.city) "London" = some 1 := by decide
  have hdl : cityDict 0 (dfW.map Row.city) "Doha" = some 0 := by decide
  exact dijkstra_airline_aware_optimal build_graph_dfW (by decide) hsl hdl hS

/-! ## Claim C8 — `None` results of the two searches -/

/-- Projection of the airline-aware loop state onto the standard one: the
airline component of each predecessor link is dropped; distances and heap
coincide. -/
def projS (s : DState) : SState :=
  { dist := s.dist, prev := s.prev.map (Option.map Prod.fst), heap := s.heap }

theorem projS_dist (s : DState) : (projS s).dist = s.dist := rfl

theorem projS_prev (s : DState) :
    (projS s).prev = s.prev.map (Option.map Prod.fst) := rfl

theorem projS_heap (s : DState) : (projS s).heap = s.heap := rfl

theorem projS_mk (a : List Cell) (b : List PrevE) (c : List (ℚ × ℕ)) :
    projS ⟨a, b, c⟩ = ⟨a, b.map (Option.map Prod.fst), c⟩ := rfl

theorem map_set_comm {α β : Type} (f : α → β) :
    ∀ (l : List α) (n : ℕ) (a : α), (l.set n a).map f = (l.map f).set n (f a)
  | [], _, _ => by simp
  | _ :: _, 0, _ => by simp
  | x :: xs, n + 1, a => by
    show f x :: (xs.set n a).map f = f x :: (xs.map f).set n (f a)
    rw [map_set_comm f xs n a]

theorem relaxEdgeStd_proj (u : ℕ) (d : ℚ) (s : DState) (e : Edge) :
    relaxEdgeStd u d (projS s) e = projS (relaxEdge u d s e) := by
  unfold relaxEdgeStd relaxEdge
  rw [projS_dist, projS_prev, projS_heap]
  by_cases h : cellLtB (d + e.2.1) (s.dist.getD e.1 none) = true
  · rw [if_pos h, if_pos h, projS_mk, map_set_comm]
    rfl
  · rw [if_neg h, if_neg h]

theorem foldl_relaxStd_proj (u : ℕ) (d : ℚ) :
    ∀ (es : List Edge) (s : DState),
      es.foldl (relaxEdgeStd u d) (projS s) = projS (es.foldl (relaxEdge u d) s)
  | [], _ => rfl
  | e :: es, s => by
    show es.foldl (relaxEdgeStd u d) (relaxEdgeStd u d (projS s) e) = _
    rw [relaxEdgeStd_proj]
    exact foldl_relaxStd_proj u d es _

/-- The standard loop simulates the airline-aware loop through `projS`. -/
theorem stdLoop_proj (adj : List (List Edge)) (dst : ℕ) :
    ∀ (fuel : ℕ) (s : DState),
      stdLoop adj dst fuel (projS s) = projS (dijkstraLoop adj dst fuel s)
  | 0, _ => rfl
  | fuel + 1, s => by
    rcases hp : popMin s.heap with _ | p
    · have hp' : popMin (projS s).heap = none := by
        rw [projS_heap, hp]
      rw [stdLoop_pop_none hp', dijkstraLoop_pop_none hp]
    · obtain ⟨⟨d, u⟩, rest⟩ := p
      have hp' : popMin (projS s).heap = some ((d, u), rest) := by
        rw [projS_heap, hp]
      by_cases hst : cellGtB d (s.dist.getD u none) = true
      · have hst' : cellGtB d ((projS s).dist.getD u none) = true := by
          rw [projS_dist]
          exact hst
        rw [stdLoop_stale hp' hst', dijkstraLoop_stale hp hst]
        have hrw : ({ projS s with heap := rest } : SState) =
            projS { s with heap := rest } := rfl
        rw [hrw]
        exact stdLoop_proj adj dst fuel _
      · have hstf : cellGtB d (s.dist.getD u none) = false :=
          Bool.eq_false_iff.mpr hst
        have hstf' : cellGtB d ((projS s).dist.getD u none) = false := by
          rw [projS_dist]
          exact hstf
        by_cases hud : u = dst
        · subst hud
          rw [stdLoop_break hp' hstf', dijkstraLoop_break hp hstf]
          rfl
        · rw [stdLoop_fresh hp' hstf' hud, dijkstraLoop_fresh hp hstf hud]
          have hrw : ({ projS s with heap := rest } : SState) =
              projS { s with heap := rest } := rfl
          rw [hrw, foldl_relaxStd_proj]
          exact stdLoop_proj adj dst fuel _

theorem initStateStd_proj (n src : ℕ) :
    initStateStd n src = projS (initState n src) := by
  unfold initStateStd initState
  rw [projS_mk, List.map_replicate]
  rfl

theorem std_none_iff {adj : List (List Edge)} {c2i : String → Option ℕ}
    {i2c : ℕ → String} {source dest : String} {src dst : ℕ}
    (hsrcl : c2i source = some src) (hdstl : c2i dest = some dst) :
    (dijkstra_standard adj c2i i2c source dest = none ↔
      (dijkstraLoop adj dst (dijkstraFuel adj)
        (initState adj.length src)).dist.getD dst none = none) := by
  unfold dijkstra_standard
  simp only [hsrcl, hdstl]
  have hdist : (stdLoop adj dst (dijkstraFuel adj)
      (initStateStd adj.length src)).dist =
      (dijkstraLoop adj dst (dijkstraFuel adj)
        (initState adj.length src)).dist := by
    rw [initStateStd_proj, stdLoop_proj]
    exact projS_dist _
  rw [hdist]
  rcases hdd : (dijkstraLoop adj dst (dijkstraFuel adj)
      (initState adj.length src)).dist.getD dst none with _ | t
  · simp
  · simp

/-- C8: both searches return `None` exactly when a source/destination lookup
fails or no path connects the two nodes (the destination's distance stays
infinite); moreover, on the same inputs, `dijkstra_standard` returns `None`
exactly when `dijkstra_airline_aware` does, so in every other case both
return a result.  (Both embeddings are total functions: the raising paths of
the Python code are modelled by the hypotheses on index ranges.) -/
theorem dijkstra_not_found_iff {adj : List (List Edge)}
    {c2i : String → Option ℕ} {i2c : ℕ → String}
    (hWF : WFadj adj)
    (hidx : ∀ name i, c2i name = some i → i < adj.length)
    (source dest : String) (airlines : List String) :
    (dijkstra_airline_aware adj c2i i2c source dest airlines = none ↔
      c2i source = none ∨ c2i dest = none ∨
      ∃ src dst, c2i source = some src ∧ c2i dest = some dst ∧
        ¬ ∃ p W, PathOn adj p W ∧ p.head? = some src ∧
          p.getLast? = some dst) ∧
    (dijkstra_standard adj c2i i2c source dest = none ↔
      dijkstra_airline_aware adj c2i i2c source dest airlines = none) := by
  rcases hs : c2i source with _ | src
  · constructor
    · constructor
      · intro _
        exact Or.inl rfl
      · intro _
        exact aware_none_of_lookup (Or.inl hs)
    · rw [std_none_of_lookup (Or.inl hs), aware_none_of_lookup (Or.inl hs)]
      exact ⟨fun _ => rfl, fun _ => rfl⟩
  · rcases hd : c2i dest with _ | dst
    · constructor
      · constructor
        · intro _
          exact Or.inr (Or.inl rfl)
        · intro _
          exact aware_none_of_lookup (Or.inr hd)
      · rw [std_none_of_lookup (Or.inr hd), aware_none_of_lookup (Or.inr hd)]
        exact ⟨fun _ => rfl, fun _ => rfl⟩
    · have hsrc : src < adj.length := hidx source src hs
      have hdst : dst < adj.length := hidx dest dst hd
      have hpost : LoopPost adj src dst (dijkstraLoop adj dst
          (dijkstraFuel adj) (initState adj.length src)) :=
        engine_post hWF hsrc
      constructor
      · rw [aware_none_iff hs hd]
        constructor
        · intro hdd
          refine Or.inr (Or.inr ⟨src, dst, rfl, rfl, ?_⟩)
          rintro ⟨p, W, hp, hph, hpl⟩
          have hle := hpost.2.2.2.2.2.2 p W hp hph hpl
          rw [hdd] at hle
          exact cLe_none_some hle
        · rintro (h | h | ⟨u, v, hs', hd', hnp⟩)
          · exact absurd h (by simp)
          · exact absurd h (by simp)
          · have hue : u = src := (Option.some.inj hs').symm
            have hve : v = dst := (Option.some.inj hd').symm
            rw [hue, hve] at hnp
            rcases hdd2 : (dijkstraLoop adj dst (dijkstraFuel adj)
                (initState adj.length src)).dist.getD dst none with _ | t2
            · rfl
            · exfalso
              obtain ⟨hpath, hph, hpl⟩ := engine_reconstruct hdst hpost hdd2
              exact hnp ⟨_, _, hpath, hph, hpl⟩
      · rw [std_none_iff hs hd, aware_none_iff hs hd]

/-- C8 witness: on the concrete graph, an unknown destination name yields
`None` from both searches, and the characterization instantiates. -/
theorem dijkstra_not_found_iff_witness :
    (dijkstra_airline_aware adjW (cityDict 0 (dfW.map Row.city))
        (indexToCity (dfW.map Row.city)) "London" "Atlantis" [] = none ↔
      cityDict 0 (dfW.map Row.city) "London" = none ∨
      cityDict 0 (dfW.map Row.city) "Atlantis" = none ∨
      ∃ src dst, cityDict 0 (dfW.map Row.city) "London" = some src ∧
        cityDict 0 (dfW.map Row.city) "Atlantis" = some dst ∧
        ¬ ∃ p W, PathOn adjW p W ∧ p.head? = some src ∧
          p.getLast? = some dst) ∧
    (dijkstra_standard adjW (cityDict 0 (dfW.map Row.city))
        (indexToCity (dfW.map Row.city)) "London" "Atlantis" = none ↔
      dijkstra_airline_aware adjW (cityDict 0 (dfW.map Row.city))
        (indexToCity (dfW.map Row.city)) "London" "Atlantis" [] = none) :=
  dijkstra_not_found_iff adjW_WF c2iW_lt "London" "Atlantis" []

/-! ## Claim C3 — monotonicity under airline-set enlargement -/

/-- A path over a subgraph is a path (with the same weight) over any
edge-superset graph. -/
theorem PathOn_mono {adjS adjT : List (List Edge)}
    (hsub : ∀ j e, e ∈ adjS.getD j [] → e ∈ adjT.getD j []) :
    ∀ {p : List ℕ} {W : ℚ}, PathOn adjS p W → PathOn adjT p W := by
  intro p W hp
  induction hp with
  | single u => exact PathOn.single u
  | cons he _ ih =>
    obtain ⟨lab, hmem⟩ := he
    exact PathOn.cons ⟨lab, hsub _ _ hmem⟩ ih

/-- Building from a larger airline selection only adds edges. -/
theorem build_adj_mono {df : List Row} {S T : List String}
    {adjS adjT : List (List Edge)} {cS cT : String → Option ℕ}
    {iS iT : ℕ → String} {dS dT : List Row}
    (hbS : build_graph df S = some (adjS, cS, iS, dS))
    (hbT : build_graph df T = some (adjT, cT, iT, dT))
    (hsub : ∀ a ∈ S, a ∈ T) :
    ∀ j e, e ∈ adjS.getD j [] → e ∈ adjT.getD j [] := by
  intro j e he
  rw [build_adj_mem hbS] at he
  rw [build_adj_mem hbT]
  rw [mem_buildGen_iff] at he ⊢
  obtain ⟨a, ha, hrest⟩ := he
  exact ⟨a, hsub a ha, hrest⟩

/-- The name-to-index mapping does not depend on the airline selection. -/
theorem build_c2i_eq {df : List Row} {S T : List String}
    {adjS adjT : List (List Edge)} {cS cT : String → Option ℕ}
    {iS iT : ℕ → String} {dS dT : List Row}
    (hbS : build_graph df S = some (adjS, cS, iS, dS))
    (hbT : build_graph df T = some (adjT, cT, iT, dT)) : cS = cT := by
  obtain ⟨-, -, h1, -, -⟩ := build_graph_elim hbS
  obtain ⟨-, -, h2, -, -⟩ := build_graph_elim hbT
  rw [h1, h2]

/-- C3: with a non-negative table, the same source and destination, and two
airline selections S ⊆ T whose builds and searches all succeed, the total
found on the T-graph is at most the total found on the S-graph. -/
theorem airline_subset_monotone {df : List Row} {S T : List String}
    {adjS adjT : List (List Edge)} {cS cT : String → Option ℕ}
    {iS iT : ℕ → String} {dS dT : List Row}
    {source dest : String} {aS aT : List String}
    {tS tT : ℚ} {citS citT : List String} {segS segT : List Seg}
    (hbS : build_graph df S = some (adjS, cS, iS, dS))
    (hbT : build_graph df T = some (adjT, cT, iT, dT))
    (hsub : ∀ a ∈ S, a ∈ T) (hnn : NonnegTable df)
    (hresS : dijkstra_airline_aware adjS cS iS source dest aS =
      some (tS, citS, segS))
    (hresT : dijkstra_airline_aware adjT cT iT source dest aT =
      some (tT, citT, segT)) :
    tT ≤ tS := by
  obtain ⟨src, dst, hslS, hdlS⟩ := aware_some_lookup hresS
  have hceq : cS = cT := build_c2i_eq hbS hbT
  have hslT : cT source = some src := hceq ▸ hslS
  have hdlT : cT dest = some dst := hceq ▸ hdlS
  have hWFS : WFadj adjS := build_graph_WF hbS hnn
  have hWFT : WFadj adjT := build_graph_WF hbT hnn
  have hsrcS : src < adjS.length := build_c2i_lt hbS source src hslS
  have hdstS : dst < adjS.length := build_c2i_lt hbS dest dst hdlS
  have hsrcT : src < adjT.length := build_c2i_lt hbT source src hslT
  obtain ⟨t1, pidx, ht1, hpidx, hddS, -, -⟩ := aware_some_elim hslS hdlS hresS
  have hpostS : LoopPost adjS src dst t1 := by
    rw [ht1]
    exact engine_post hWFS hsrcS
  have hrecS := engine_reconstruct hdstS hpostS hddS
  rw [← hpidx] at hrecS
  obtain ⟨hpathS, hheadS, hlastS⟩ := hrecS
  have hpathT : PathOn adjT pidx tS :=
    PathOn_mono (build_adj_mono hbS hbT hsub) hpathS
  obtain ⟨t2, pidx2, ht2, -, hddT, -, -⟩ := aware_some_elim hslT hdlT hresT
  have hpostT : LoopPost adjT src dst t2 := by
    rw [ht2]
    exact engine_post hWFT hsrcT
  have hle := hpostT.2.2.2.2.2.2 pidx tS hpathT hheadS hlastS
  rw [hddT] at hle
  exact cLe_some_iff.mp hle

/-- The adjacency structure built from the two-airline selection (the
Emirates hub is absent from the table, so its loop iteration adds nothing). -/
def adjW2 : List (List Edge) :=
  pushList (List.replicate (dfW.map Row.city).length [])
    (buildGen dfW (dfW.map Row.city) (cityDict 0 (dfW.map Row.city))
      ["Qatar Airways", "Emirates"])

theorem build_graph_dfW2 :
    build_graph dfW ["Qatar Airways", "Emirates"] =
      some (adjW2, cityDict 0 (dfW.map Row.city),
            indexToCity (dfW.map Row.city), dfW) := by
  rfl

/-- C3 witness: both concrete builds and runs succeed and 3000 ≤ 3000. -/
theorem airline_subset_monotone_witness : (3000 : ℚ) ≤ 3000 := by
  have hS : dijkstra_airline_aware adjW (cityDict 0 (dfW.map Row.city))
      (indexToCity (dfW.map Row.city)) "London" "Doha" [] =
      some (3000, ["London", "Doha"], [("London", "Doha", some "Qatar Airways")]) := by
    with_unfolding_all rfl
  have hT : dijkstra_airline_aware adjW2 (cityDict 0 (dfW.map Row.city))
      (indexToCity (dfW.map Row.city)) "London" "Doha" [] =
      some (3000, ["London", "Doha"], [("London", "Doha", some "Qatar Airways")]) := by
    with_unfolding_all rfl
  exact airline_subset_monotone build_graph_dfW build_graph_dfW2
    (by decide) (by decide) hS hT

/-! ## Claim C2 — the builder's edge rule over the exact float model

The builder's only distance filter is the source line
`if d == float("inf"): continue`.  Python float equality makes this test
FALSE for NaN, so a NaN ("unknown") distance cell still produces edges,
carrying weight NaN.  The `Cell` model above cannot express this, so the
table cells and the builder are re-embedded here with a three-valued float
type, translated from `data_loader.py` and `graph_builder.py`. -/

/-- A Python float slot of the distance columns: a finite value, the `inf`
sentinel, or NaN (`pd.to_numeric(errors="coerce")` turns a missing or
unparseable cell into NaN, and `clean_airport_data` keeps such rows). -/
inductive PF where
  | fin (q : ℚ)
  | inf
  | nan
deriving DecidableEq

/-- A cleaned row with exact float distance cells. -/
structure RowF where
  city : String
  country : String
  lat : Option ℚ
  lon : Option ℚ
  dDoha : PF
  dDubai : PF
  dAbuDhabi : PF
deriving DecidableEq

/-- The default row models the unreachable `.iloc[0]`-on-empty arm of the
distance lookup. -/
instance : Inhabited RowF := ⟨⟨"", "", none, none, PF.nan, PF.nan, PF.nan⟩⟩

/-- A raw (pre-cleaning) row; the distance fields hold the value after the
`pd.to_numeric(errors="coerce")` coercion (NaN when unparseable). -/
structure RawRowF where
  city : Option String
  country : Option String
  lat : Option ℚ
  lon : Option ℚ
  dDoha : PF
  dDubai : PF
  dAbuDhabi : PF

/-- `drop_duplicates(subset=["City", "Country"], keep="first")`. -/
def dropDupRowsF : List RowF → List (String × String) → List RowF
  | [], _ => []
  | r :: rs, seen =>
    if (r.city, r.country) ∈ seen then dropDupRowsF rs seen
    else r :: dropDupRowsF rs ((r.city, r.country) :: seen)

/-- `clean_airport_data` over the exact float model: stringify City/Country
(a missing City becomes the string "nan"), drop rows whose Latitude or
Longitude failed numeric coercion — the distance columns are NOT part of the
`dropna` subset — and collapse duplicate (City, Country) pairs keeping the
first occurrence. -/
def clean_airport_dataF (raw : List RawRowF) : List RowF :=
  let rows := raw.map (fun r =>
    { city := pdStr r.city, country := pdStr r.country, lat := r.lat,
      lon := r.lon, dDoha := r.dDoha, dDubai := r.dDubai,
      dAbuDhabi := r.dAbuDhabi : RowF })
  let kept := rows.filter (fun r => r.lat.isSome && r.lon.isSome)
  dropDupRowsF kept []

/-- An adjacency entry `(neighbor_index, weight_km, airline_or_None)` whose
weight is an exact float (possibly NaN). -/
abbrev EdgeF := ℕ × PF × Option String

/-- First row whose City equals `name` (`df[df["City"] == name].iloc[0]`). -/
def distRowF (df : List RowF) (name : String) : RowF :=
  (df.find? (fun r => r.city = name)).getD default

/-- The local `dist(a, b)` of `build_graph` over exact floats: 0.0 on equal
names, the matching precomputed hub-distance column (finite, inf or NaN)
when either endpoint is a hub name, and `inf` for non-hub/non-hub pairs. -/
def dist_lookupF (df : List RowF) (a b : String) : PF :=
  if a = b then PF.fin 0
  else if a = "Doha" then (distRowF df b).dDoha
  else if a = "Dubai" then (distRowF df b).dDubai
  else if a = "Abu Dhabi" then (distRowF df b).dAbuDhabi
  else if b = "Doha" then (distRowF df a).dDoha
  else if b = "Dubai" then (distRowF df a).dDubai
  else if b = "Abu Dhabi" then (distRowF df a).dAbuDhabi
  else PF.inf

/-! ### Generic adjacency-append machinery -/

/-- `adjacency_list[i].append(e)` (generic element type). -/
def gPush {α : Type} (adj : List (List α)) (i : ℕ) (e : α) : List (List α) :=
  adj.set i (adj.getD i [] ++ [e])

/-- Run a list of `(position, element)` appends in order. -/
def gPushList {α : Type} (adj : List (List α)) (l : List (ℕ × α)) :
    List (List α) :=
  l.foldl (fun acc p => gPush acc p.1 p.2) adj

theorem length_gPush {α : Type} (adj : List (List α)) (i : ℕ) (e : α) :
    (gPush adj i e).length = adj.length := by
  simp [gPush]

theorem getD_gPush_self {α : Type} {adj : List (List α)} {i : ℕ} (e : α)
    (h : i < adj.length) :
    (gPush adj i e).getD i [] = adj.getD i [] ++ [e] := by
  unfold gPush
  rw [List.getD_eq_getD_get?, List.get?_set_eq_of_lt _ h]
  rfl

theorem getD_gPush_ne {α : Type} {adj : List (List α)} {i j : ℕ} (e : α)
    (h : i ≠ j) :
    (gPush adj i e).getD j [] = adj.getD j [] := by
  unfold gPush
  rw [List.getD_eq_getD_get?, List.get?_set_ne _ _ h, ← List.getD_eq_getD_get?]

theorem gPushList_append {α : Type} (adj : List (List α))
    (l₁ l₂ : List (ℕ × α)) :
    gPushList adj (l₁ ++ l₂) = gPushList (gPushList adj l₁) l₂ := by
  simp [gPushList, List.foldl_append]

theorem length_gPushList {α : Type} (adj : List (List α)) (l : List (ℕ × α)) :
    (gPushList adj l).length = adj.length := by
  induction l generalizing adj with
  | nil => rfl
  | cons p rest ih =>
    show (gPushList (gPush adj p.1 p.2) rest).length = adj.length
    rw [ih, length_gPush]

theorem getD_gPushList {α : Type} {l : List (ℕ × α)} {adj : List (List α)}
    (hl : ∀ p ∈ l, p.1 < adj.length) (j : ℕ) :
    (gPushList adj l).getD j [] =
      adj.getD j [] ++
        (l.filter (fun p => decide (p.1 = j))).map (fun p => p.2) := by
  induction l generalizing adj with
  | nil => simp [gPushList]
  | cons p rest ih =>
    have hp : p.1 < adj.length := hl p (List.mem_cons_self _ _)
    have hrest : ∀ q ∈ rest, q.1 < (gPush adj p.1 p.2).length := by
      intro q hq
      rw [length_gPush]
      exact hl q (List.mem_cons_of_mem _ hq)
    show (gPushList (gPush adj p.1 p.2) rest).getD j [] = _
    rw [ih hrest]
    by_cases hj : p.1 = j
    · subst hj
      rw [getD_gPush_self _ hp]
      simp [List.filter_cons]
    · rw [getD_gPush_ne _ hj]
      simp [List.filter_cons, hj]

theorem mem_getD_gPushList {α : Type} {l : List (ℕ × α)} {adj : List (List α)}
    (hl : ∀ p ∈ l, p.1 < adj.length)
    (hadj : ∀ i, adj.getD i [] = []) (j : ℕ) (e : α) :
    e ∈ (gPushList adj l).getD j [] ↔ (j, e) ∈ l := by
  rw [getD_gPushList hl, hadj]
  simp only [List.nil_append, List.mem_map, List.mem_filter, decide_eq_true_eq]
  constructor
  · rintro ⟨p, ⟨hp, rfl⟩, rfl⟩
    exact (Prod.mk.eta (p := p)) ▸ hp
  · intro hje
    exact ⟨(j, e), ⟨hje, rfl⟩, rfl⟩

theorem getD_replicate_nil_g {α : Type} (n i : ℕ) :
    (List.replicate n ([] : List α)).getD i [] = [] := by
  by_cases h : i < n
  · rw [List.getD_eq_getElem _ _ (by simpa using h)]
    simp
  · exact List.getD_eq_default _ _ (by simpa using Nat.le_of_not_lt h)

/-! ### The builder over exact floats -/

/-- Body of the inner `for c in cities` loop of `build_graph`: the ONLY
distance filter is `if d == float("inf"): continue`, which NaN passes. -/
def addCityEdgesF (df : List RowF) (airline hub : String)
    (c2i : String → Option ℕ) (hi : ℕ)
    (adj : List (List EdgeF)) (c : String) : List (List EdgeF) :=
  if c = hub then adj
  else if airline_serves_city airline c = false then adj
  else
    match c2i c with
    | none => adj
    | some ci =>
      if dist_lookupF df hub c = PF.inf then adj
      else gPush (gPush adj hi (ci, dist_lookupF df hub c, some airline))
             ci (hi, dist_lookupF df hub c, some airline)

/-- Body of the outer `for airline in airlines` loop of `build_graph`. -/
def addAirlineEdgesF (df : List RowF) (cities : List String)
    (c2i : String → Option ℕ)
    (adj : List (List EdgeF)) (airline : String) : List (List EdgeF) :=
  match get_hub airline with
  | none => adj
  | some hub =>
    match c2i hub with
    | none => adj
    | some hi => cities.foldl (addCityEdgesF df airline hub c2i hi) adj

/-- `build_graph(df, airlines)` over exact floats; `none` models the
`ValueError("Unsupported airline: ...")`. -/
def build_graphF (df : List RowF) (airlines : List String) :
    Option (List (List EdgeF) × (String → Option ℕ) × (ℕ → String) ×
      List RowF) :=
  if airlines.all (fun a => decide (a ∈ SUPPORTED_AIRLINES)) then
    let cities := df.map RowF.city
    let adjacency := airlines.foldl
      (addAirlineEdgesF df cities (cityDict 0 cities))
      (List.replicate cities.length ([] : List EdgeF))
    some (adjacency, cityDict 0 cities, indexToCity cities, df)
  else none

/-- The `(position, edge)` pairs appended by one iteration of the inner city
loop of the exact-float builder. -/
def cityGenF (df : List RowF) (airline hub : String)
    (c2i : String → Option ℕ) (hi : ℕ) (c : String) : List (ℕ × EdgeF) :=
  if c = hub then []
  else if airline_serves_city airline c = false then []
  else
    match c2i c with
    | none => []
    | some ci =>
      if dist_lookupF df hub c = PF.inf then []
      else [(hi, (ci, dist_lookupF df hub c, some airline)),
            (ci, (hi, dist_lookupF df hub c, some airline))]

theorem addCityEdgesF_eq (df : List RowF) (airline hub : String)
    (c2i : String → Option ℕ) (hi : ℕ) (adj : List (List EdgeF)) (c : String) :
    addCityEdgesF df airline hub c2i hi adj c =
      gPushList adj (cityGenF df airline hub c2i hi c) := by
  unfold addCityEdgesF cityGenF
  by_cases h1 : c = hub
  · simp [h1, gPushList]
  · rcases h2 : airline_serves_city airline c with _ | _
    · simp [h1, h2, gPushList]
    · simp only [h1, h2, if_false, Bool.true_eq_false]
      rcases h3 : c2i c with _ | ci
      · simp [gPushList]
      · by_cases h4 : dist_lookupF df hub c = PF.inf
        · simp [h4, gPushList]
        · simp [h4, gPushList]

/-- The pairs appended for one requested airline. -/
def airlineGenF (df : List RowF) (cities : List String)
    (c2i : String → Option ℕ) (airline : String) : List (ℕ × EdgeF) :=
  match get_hub airline with
  | none => []
  | some hub =>
    match c2i hub with
    | none => []
    | some hi => cities.flatMap (cityGenF df airline hub c2i hi)

theorem foldl_addCityEdgesF (df : List RowF) (airline hub : String)
    (c2i : String → Option ℕ) (hi : ℕ) :
    ∀ (cities : List String) (adj : List (List EdgeF)),
      cities.foldl (addCityEdgesF df airline hub c2i hi) adj =
        gPushList adj (cities.flatMap (cityGenF df airline hub c2i hi)) := by
  intro cities
  induction cities with
  | nil => intro adj; rfl
  | cons c rest ih =>
    intro adj
    show rest.foldl _ (addCityEdgesF df airline hub c2i hi adj c) = _
    rw [ih, addCityEdgesF_eq, ← gPushList_append, List.flatMap_cons]

theorem addAirlineEdgesF_eq (df : List RowF) (cities : List String)
    (c2i : String → Option ℕ) (adj : List (List EdgeF)) (airline : String) :
    addAirlineEdgesF df cities c2i adj airline =
      gPushList adj (airlineGenF df cities c2i airline) := by
  unfold addAirlineEdgesF airlineGenF
  rcases get_hub airline with _ | hub
  · rfl
  · rcases hc : c2i hub with _ | hi
    · simp only [hc]
      rfl
    · simp only [hc]
      exact foldl_addCityEdgesF df airline hub c2i hi cities adj

/-- All pairs appended by the exact-float builder for a list of airlines. -/
def buildGenF (df : List RowF) (cities : List String)
    (c2i : String → Option ℕ) (airlines : List String) : List (ℕ × EdgeF) :=
  airlines.flatMap (airlineGenF df cities c2i)

theorem foldl_addAirlineEdgesF (df : List RowF) (cities : List String)
    (c2i : String → Option ℕ) :
    ∀ (airlines : List String) (adj : List (List EdgeF)),
      airlines.foldl (addAirlineEdgesF df cities c2i) adj =
        gPushList adj (buildGenF df cities c2i airlines) := by
  intro airlines
  induction airlines with
  | nil => intro adj; rfl
  | cons a rest ih =>
    intro adj
    show rest.foldl _ (addAirlineEdgesF df cities c2i adj a) = _
    rw [ih, addAirlineEdgesF_eq, ← gPushList_append]
    show _ = gPushList adj ((a :: rest).flatMap (airlineGenF df cities c2i))
    rw [List.flatMap_cons]
    rfl

theorem mem_cityGenF_iff {df : List RowF} {airline hub : String}
    {c2i : String → Option ℕ} {hi : ℕ} {c : String} {p : ℕ × EdgeF} :
    p ∈ cityGenF df airline hub c2i hi c ↔
      c ≠ hub ∧ airline_serves_city airline c = true ∧
      ∃ ci d, c2i c = some ci ∧ dist_lookupF df hub c = d ∧ d ≠ PF.inf ∧
        (p = (hi, (ci, d, some airline)) ∨ p = (ci, (hi, d, some airline))) := by
  unfold cityGenF
  by_cases h1 : c = hub
  · simp [h1]
  · rcases h2 : airline_serves_city airline c with _ | _
    · simp [h1, h2]
    · rcases h3 : c2i c with _ | ci
      · simp [h1, h2, h3]
      · by_cases h4 : dist_lookupF df hub c = PF.inf
        · simp only [h4, if_pos rfl]
          simp [h1, h2, h3, h4]
        · simp only [if_neg h4]
          simp [h1, h2, h3, h4]

theorem mem_airlineGenF_iff {df : List RowF} {cities : List String}
    {c2i : String → Option ℕ} {airline : String} {p : ℕ × EdgeF} :
    p ∈ airlineGenF df cities c2i airline ↔
      ∃ hub hi, get_hub airline = some hub ∧ c2i hub = some hi ∧
        ∃ c ∈ cities, p ∈ cityGenF df airline hub c2i hi c := by
  unfold airlineGenF
  rcases hg : get_hub airline with _ | hub
  · simp
  · rcases hh : c2i hub with _ | hi
    · simp [hh]
    · simp [hh, List.mem_flatMap]

theorem mem_buildGenF_iff {df : List RowF} {cities : List String}
    {c2i : String → Option ℕ} {airlines : List String} {p : ℕ × EdgeF} :
    p ∈ buildGenF df cities c2i airlines ↔
      ∃ a ∈ airlines, ∃ hub hi, get_hub a = some hub ∧ c2i hub = some hi ∧
        ∃ c ∈ cities, p ∈ cityGenF df a hub c2i hi c := by
  unfold buildGenF
  simp only [List.mem_flatMap]
  constructor
  · rintro ⟨a, ha, hp⟩
    exact ⟨a, ha, mem_airlineGenF_iff.mp hp⟩
  · rintro ⟨a, ha, hrest⟩
    exact ⟨a, ha, mem_airlineGenF_iff.mpr hrest⟩

theorem buildGenF_fst_lt {df : List RowF} {cities : List String}
    {airlines : List String} {p : ℕ × EdgeF}
    (hp : p ∈ buildGenF df cities (cityDict 0 cities) airlines) :
    p.1 < cities.length ∧ p.2.1 < cities.length := by
  obtain ⟨a, -, hub, hi, -, hhi, c, -, hcg⟩ := mem_buildGenF_iff.mp hp
  obtain ⟨-, -, ci, d, hci, -, -, hcase⟩ := mem_cityGenF_iff.mp hcg
  have h1 := (cityDict_some_facts hhi).2.1
  have h2 := (cityDict_some_facts hci).2.1
  rcases hcase with rfl | rfl
  · exact ⟨h1, h2⟩
  · exact ⟨h2, h1⟩

/-- Eliminating a successful exact-float build into its components. -/
theorem build_graphF_elim {df : List RowF} {airlines : List String}
    {adj : List (List EdgeF)} {c2i : String → Option ℕ} {i2c : ℕ → String}
    {df' : List RowF}
    (hb : build_graphF df airlines = some (adj, c2i, i2c, df')) :
    (∀ a ∈ airlines, a ∈ SUPPORTED_AIRLINES) ∧
    adj = gPushList (List.replicate (df.map RowF.city).length [])
            (buildGenF df (df.map RowF.city)
              (cityDict 0 (df.map RowF.city)) airlines) ∧
    c2i = cityDict 0 (df.map RowF.city) ∧
    i2c = indexToCity (df.map RowF.city) ∧ df' = df := by
  unfold build_graphF at hb
  by_cases hc : (airlines.all fun a => decide (a ∈ SUPPORTED_AIRLINES)) = true
  · rw [if_pos hc] at hb
    simp only [Option.some.injEq, Prod.mk.injEq] at hb
    obtain ⟨h1, h2, h3, h4⟩ := hb
    refine ⟨by simpa using hc, ?_, h2.symm, h3.symm, h4.symm⟩
    rw [← h1, foldl_addAirlineEdgesF]
  · rw [if_neg hc] at hb
    exact absurd hb (by simp)

/-- Adjacency membership in an exact-float built graph. -/
theorem build_adjF_mem {df : List RowF} {airlines : List String}
    {adj : List (List EdgeF)} {c2i : String → Option ℕ} {i2c : ℕ → String}
    {df' : List RowF}
    (hb : build_graphF df airlines = some (adj, c2i, i2c, df'))
    (j : ℕ) (e : EdgeF) :
    e ∈ adj.getD j [] ↔
      (j, e) ∈ buildGenF df (df.map RowF.city)
        (cityDict 0 (df.map RowF.city)) airlines := by
  obtain ⟨-, hadj, -, -, -⟩ := build_graphF_elim hb
  subst hadj
  exact mem_getD_gPushList
    (fun p hp => by simpa using (buildGenF_fst_lt hp).1)
    (fun i => getD_replicate_nil_g _ i) j e

/-- C2 (amended): in a graph built over the exact float model, for every
requested airline `a` with hub present in the table and every distinct city
name `c`, an edge between the hub's node and `c`'s node carrying label `a`
and weight `w` exists (in either direction) iff `a` serves `c` and the
table's hub-distance lookup for `c` equals `w` and `w` is not the
`float("inf")` sentinel — in particular a NaN (unknown/unparseable) distance
cell still produces edges, carrying weight NaN, because the builder's only
filter `d == float("inf")` is false for NaN; such edges are always inserted
in both directions; and every edge of the graph touches the hub node of some
requested airline. -/
theorem build_graphF_edge_rule {df : List RowF} {airlines : List String}
    {adj : List (List EdgeF)} {c2i : String → Option ℕ} {i2c : ℕ → String}
    {df' : List RowF}
    (hb : build_graphF df airlines = some (adj, c2i, i2c, df')) :
    (∀ a ∈ airlines, ∀ hub c, get_hub a = some hub → c ≠ hub →
      ∀ hi ci, c2i hub = some hi → c2i c = some ci → ∀ w : PF,
      (((ci, w, some a) ∈ adj.getD hi [] ∨ (hi, w, some a) ∈ adj.getD ci []) ↔
        (airline_serves_city a c = true ∧ dist_lookupF df hub c = w ∧
          w ≠ PF.inf)) ∧
      (airline_serves_city a c = true → dist_lookupF df hub c = w →
        w ≠ PF.inf →
        (ci, w, some a) ∈ adj.getD hi [] ∧ (hi, w, some a) ∈ adj.getD ci [])) ∧
    (∀ j e, e ∈ adj.getD j [] →
      ∃ a ∈ airlines, ∃ hub hi, get_hub a = some hub ∧ c2i hub = some hi ∧
        (j = hi ∨ e.1 = hi)) := by
  obtain ⟨hsup, hadjeq, hc2i, hi2c, hdfeq⟩ := build_graphF_elim hb
  subst hc2i
  constructor
  · intro a ha hub c hhub hcne hi ci hhi hci w
    have hback : airline_serves_city a c = true → dist_lookupF df hub c = w →
        w ≠ PF.inf →
        (ci, w, some a) ∈ adj.getD hi [] ∧ (hi, w, some a) ∈ adj.getD ci [] := by
      intro hserves hdist hwne
      have hcmem : c ∈ df.map RowF.city := (cityDict_some_facts hci).1
      constructor
      · rw [build_adjF_mem hb]
        exact mem_buildGenF_iff.mpr ⟨a, ha, hub, hi, hhub, hhi, c, hcmem,
          mem_cityGenF_iff.mpr ⟨hcne, hserves, ci, w, hci, hdist, hwne,
            Or.inl rfl⟩⟩
      · rw [build_adjF_mem hb]
        exact mem_buildGenF_iff.mpr ⟨a, ha, hub, hi, hhub, hhi, c, hcmem,
          mem_cityGenF_iff.mpr ⟨hcne, hserves, ci, w, hci, hdist, hwne,
            Or.inr rfl⟩⟩
    refine ⟨⟨?_, fun hrhs => Or.inl (hback hrhs.1 hrhs.2.1 hrhs.2.2).1⟩, hback⟩
    intro hmem
    rcases hmem with hmem | hmem
    · rw [build_adjF_mem hb] at hmem
      obtain ⟨a', ha', hub', hi', hhub', hhi', c', hc'mem, hcg⟩ :=
        mem_buildGenF_iff.mp hmem
      obtain ⟨hcne', hserves', ci', d', hci', hdist', hne', hpair⟩ :=
        mem_cityGenF_iff.mp hcg
      rcases hpair with hp | hp
      · simp only [Prod.mk.injEq, Option.some.injEq] at hp
        obtain ⟨h1, h2, h3, h4⟩ := hp
        subst h4
        have hhe : hub' = hub := Option.some.inj (hhub'.symm.trans hhub)
        rw [hhe] at hhi' hdist'
        have hce : c' = c := cityDict_inj hci' (h2 ▸ hci)
        subst hce
        exact ⟨hserves', h3 ▸ hdist', h3 ▸ hne'⟩
      · simp only [Prod.mk.injEq, Option.some.injEq] at hp
        obtain ⟨h1, h2, h3, h4⟩ := hp
        subst h4
        have hhe : hub' = hub := Option.some.inj (hhub'.symm.trans hhub)
        rw [hhe] at hhi' hdist'
        have hch : c = hub := cityDict_inj hci (h2 ▸ hhi')
        exact absurd hch hcne
    · rw [build_adjF_mem hb] at hmem
      obtain ⟨a', ha', hub', hi', hhub', hhi', c', hc'mem, hcg⟩ :=
        mem_buildGenF_iff.mp hmem
      obtain ⟨hcne', hserves', ci', d', hci', hdist', hne', hpair⟩ :=
        mem_cityGenF_iff.mp hcg
      rcases hpair with hp | hp
      · simp only [Prod.mk.injEq, Option.some.injEq] at hp
        obtain ⟨h1, h2, h3, h4⟩ := hp
        subst h4
        have hhe : hub' = hub := Option.some.inj (hhub'.symm.trans hhub)
        rw [hhe] at hhi' hdist'
        have hch : c = hub := cityDict_inj hci (h1 ▸ hhi')
        exact absurd hch hcne
      · simp only [Prod.mk.injEq, Option.some.injEq] at hp
        obtain ⟨h1, h2, h3, h4⟩ := hp
        subst h4
        have hhe : hub' = hub := Option.some.inj (hhub'.symm.trans hhub)
        rw [hhe] at hhi' hdist'
        have hce : c' = c := cityDict_inj hci' (h1 ▸ hci)
        subst hce
        exact ⟨hserves', h3 ▸ hdist', h3 ▸ hne'⟩
  · intro j e hmem
    rw [build_adjF_mem hb] at hmem
    obtain ⟨a, ha, hub, hi, hhub, hhi, c, hcmem, hcg⟩ :=
      mem_buildGenF_iff.mp hmem
    obtain ⟨-, -, ci, d, hci, hdist, hne, hpair⟩ := mem_cityGenF_iff.mp hcg
    rcases hpair with hp | hp
    · exact ⟨a, ha, hub, hi, hhub, hhi, Or.inl (congrArg Prod.fst hp)⟩
    · refine ⟨a, ha, hub, hi, hhub, hhi, Or.inr ?_⟩
      have hpe : e = (hi, d, some a) := congrArg Prod.snd hp
      rw [hpe]

/-- A raw table whose London row has an unparseable Doha-distance cell
(NaN after `pd.to_numeric(errors="coerce")`); cleaning keeps the row since
only Latitude/Longitude are in the `dropna` subset. -/
def rawNan : List RawRowF :=
  [⟨some "Doha", some "Qatar", some 25, some 51,
    PF.fin 0, PF.fin 700, PF.fin 300⟩,
   ⟨some "London", some "UK", some 51, some 0, PF.nan, PF.inf, PF.inf⟩]

/-- The cleaned table with a NaN distance cell. -/
def dfN : List RowF := clean_airport_dataF rawNan

/-- The adjacency structure `build_graphF dfN ["Qatar Airways"]` produces. -/
def adjN : List (List EdgeF) :=
  gPushList (List.replicate (dfN.map RowF.city).length [])
    (buildGenF dfN (dfN.map RowF.city) (cityDict 0 (dfN.map RowF.city))
      ["Qatar Airways"])

theorem build_graphF_dfN :
    build_graphF dfN ["Qatar Airways"] =
      some (adjN, cityDict 0 (dfN.map RowF.city),
            indexToCity (dfN.map RowF.city), dfN) := by
  rfl

/-- C2 counterexample: on the cleaned table `dfN` — kept by cleaning despite
its NaN Doha-distance for London — the builder inserts the Doha↔London edge
in both directions with weight NaN although the table's distance is neither
finite nor known, because the source's only filter `d == float("inf")` is
false for NaN.  This refutes "edge iff the distance is finite and known". -/
theorem build_graph_nan_edge :
    dist_lookupF dfN "Doha" "London" = PF.nan ∧
    (∀ q : ℚ, dist_lookupF dfN "Doha" "London" ≠ PF.fin q) ∧
    airline_serves_city "Qatar Airways" "London" = true ∧
    build_graphF dfN ["Qatar Airways"] =
      some (adjN, cityDict 0 (dfN.map RowF.city),
            indexToCity (dfN.map RowF.city), dfN) ∧
    (1, PF.nan, some "Qatar Airways") ∈ adjN.getD 0 [] ∧
    (0, PF.nan, some "Qatar Airways") ∈ adjN.getD 1 [] := by
  refine ⟨rfl, ?_, by decide, rfl, by decide, by decide⟩
  intro q h
  have hq : PF.nan = PF.fin q := h
  exact PF.noConfusion hq

/-- C2 amended-claim witness: the exact-float edge rule applied to the
concrete table `dfN` yields the NaN-weighted Doha↔London edge in both
directions. -/
theorem build_graphF_edge_rule_witness :
    ((1 : ℕ), PF.nan, some "Qatar Airways") ∈ adjN.getD 0 [] ∧
    ((0 : ℕ), PF.nan, some "Qatar Airways") ∈ adjN.getD 1 [] := by
  have h := (build_graphF_edge_rule build_graphF_dfN).1 "Qatar Airways"
    (by decide) "Doha" "London" (by rfl) (by decide) 0 1 (by rfl) (by rfl)
    PF.nan
  exact h.2 (by decide) (by rfl) (by decide)
